import Mathlib

/-
Verification of the fixed-depth game-tree search core of the chess engine
(src/search/src/search.rs) against its natural-language specification.

The search functions are embedded directly from the source.  The external
collaborators used by the search (move generator, position history, static
evaluator, score type) live in crates that are not part of the two source
files, so they are modelled from the specification as an abstract game
interface; the search code itself is translated statement by statement.
-/

namespace Chess

/-- Side to move (src/src/position.rs, `SideToMove`). -/
inductive Side where
  | White
  | Black
deriving DecidableEq, Repr

/-- Modelled from the spec: applying a move passes the turn to the other
side; part of the position-history collaborator contract (spec section 6). -/
def Side.other : Side → Side
  | Side.White => Side.Black
  | Side.Black => Side.White

/-- Modelled from the spec: `Score` is a bounded signed integer type with
`MIN` and `MAX` sentinels (spec section 6).  The eval crate is not under
src/, so scores are embedded as mathematical integers together with the
16-bit bounds; all in-range arithmetic of the source is exact here. -/
abbrev Score := Int

/-- Modelled from the spec: the minimal score sentinel. -/
def Score.MIN : Score := -32768

/-- Modelled from the spec: the maximal score sentinel. -/
def Score.MAX : Score := 32767

/-- Modelled from the spec: the collaborators of the search core (spec
section 6) over a position type `P` and a move type `M`.
`generate_moves` returns the legal moves of a position in generator order
(the effect of `MoveGenerator::generate_moves` on the scratch buffer),
`make_move` is the successor position produced by applying a move (the
effect of `PositionHistory::do_move` on the current position),
`eval_relative` is the side-to-move-relative static evaluation
(`Eval::eval_relative`), and `null_move` is the placeholder move
`Move::NULL`. -/
structure Game (P M : Type) where
  side_to_move : P → Side
  generate_moves : P → List M
  make_move : P → M → P
  eval_relative : P → Score
  null_move : M

variable {P M : Type}

/-- Modelled from the spec: `Eval::eval` reports the same score as
`eval_relative`, but from the white perspective (spec section 6). -/
def Game.eval (g : Game P M) (p : P) : Score :=
  match g.side_to_move p with
  | Side.White => g.eval_relative p
  | Side.Black => -g.eval_relative p

/-- Modelled from the spec: the position history collaborator, a stack of
positions whose top is the current position (spec section 6). -/
structure Hist (P : Type) where
  cur : P
  rest : List P
deriving DecidableEq

/-- Modelled from the spec: `PositionHistory::do_move` pushes the successor
position onto the history. -/
def Hist.do_move (g : Game P M) (h : Hist P) (m : M) : Hist P :=
  ⟨g.make_move h.cur m, h.cur :: h.rest⟩

/-- Modelled from the spec: `PositionHistory::undo_last_move` pops back to
the exact previous state. -/
def Hist.undo_last_move (h : Hist P) : Hist P :=
  match h.rest with
  | [] => h
  | p :: ps => ⟨p, ps⟩

/-- Result of one recursive search call: the returned score together with
the final state of the move-list scratch stack, the principal-variation
buffer and the position history (all mutated in place in the source). -/
structure SOut (P M : Type) where
  score : Score
  stack : List (List M)
  pv : List M
  hist : Hist P
deriving DecidableEq

namespace Search

/-- The principal-variation update performed on an improving move at depth
`depth` (src/search/src/search.rs lines 92-99 and 144-151): the move is
written at the start of the row owned by this depth and the row of the
child depth is copied into the remaining slots, one slot at a time. -/
def pv_update (g : Game P M) (pv : List M) (depth : Nat) (m : M) : List M :=
  let idx := pv.length - depth * (depth + 1) / 2
  (List.range' 1 (depth - 1)).foldl
    (fun acc i => acc.set (idx + i) (acc.getD (idx + i + depth - 1) g.null_move))
    (pv.set idx m)

/-- The move loop of `Search::negamax_recursive`
(src/search/src/search.rs lines 82-102), with the recursive call abstracted
as `child`: apply the move, recurse, negate, keep the running maximum and
update the principal variation on improvement, undo the move. -/
def negamax_loop (g : Game P M)
    (child : List (List M) → List M → Hist P → SOut P M) (depth : Nat) :
    List M → Score → List (List M) → List M → Hist P → SOut P M
  | [], mx, st, pv, h => ⟨mx, st, pv, h⟩
  | m :: ms, mx, st, pv, h =>
      let o := child st pv (h.do_move g m)
      let new_score := -o.score
      if new_score > mx then
        negamax_loop g child depth ms new_score o.stack
          (pv_update g o.pv depth m) o.hist.undo_last_move
      else
        negamax_loop g child depth ms mx o.stack o.pv o.hist.undo_last_move

/-- `Search::negamax_recursive` (src/search/src/search.rs lines 67-107).
At depth 0 the leaf is evaluated side-relatively; otherwise a scratch
move list is popped, filled with the legal moves, the move loop runs from
`Score::MIN`, and the scratch list is pushed back. -/
def negamax_recursive (g : Game P M) :
    Nat → List (List M) → List M → Hist P → SOut P M
  | 0, st, pv, h => ⟨g.eval_relative h.cur, st, pv, h⟩
  | depth + 1, st, pv, h =>
      match st with
      | [] => ⟨Score.MIN, [], pv, h⟩
      | _ml :: rest =>
          let move_list := g.generate_moves h.cur
          let o := negamax_loop g (negamax_recursive g depth) (depth + 1)
            move_list Score.MIN rest pv h
          ⟨o.score, move_list :: o.stack, o.pv, o.hist⟩

/-- The move loop of `Search::alpha_beta_recursive`
(src/search/src/search.rs lines 126-154), with the recursive call
abstracted as `child`: apply the move, recurse on the negated window,
negate; on a beta cutoff clamp the score to `beta`, undo and break; on an
alpha improvement raise `alpha` and the score and update the principal
variation; undo the move in every case. -/
def alpha_beta_loop (g : Game P M)
    (child : Score → Score → List (List M) → List M → Hist P → SOut P M)
    (depth : Nat) :
    List M → Score → Score → Score → List (List M) → List M → Hist P →
      SOut P M
  | [], _alpha, _beta, score, st, pv, h => ⟨score, st, pv, h⟩
  | m :: ms, alpha, beta, score, st, pv, h =>
      let o := child (-beta) (-alpha) st pv (h.do_move g m)
      let new_score := -o.score
      if new_score ≥ beta then
        ⟨beta, o.stack, o.pv, o.hist.undo_last_move⟩
      else if new_score > alpha then
        alpha_beta_loop g child depth ms new_score beta new_score o.stack
          (pv_update g o.pv depth m) o.hist.undo_last_move
      else
        alpha_beta_loop g child depth ms alpha beta score o.stack o.pv
          o.hist.undo_last_move

/-- `Search::alpha_beta_recursive` (src/search/src/search.rs lines
109-159).  The running score starts at `Score::MIN + 1`; at depth 0 the
leaf is evaluated side-relatively; otherwise the move loop runs with the
given window and the scratch list is pushed back. -/
def alpha_beta_recursive (g : Game P M) :
    Nat → Score → Score → List (List M) → List M → Hist P → SOut P M
  | 0, _alpha, _beta, st, pv, h => ⟨g.eval_relative h.cur, st, pv, h⟩
  | depth + 1, alpha, beta, st, pv, h =>
      match st with
      | [] => ⟨Score.MIN + 1, [], pv, h⟩
      | _ml :: rest =>
          let move_list := g.generate_moves h.cur
          let o := alpha_beta_loop g (alpha_beta_recursive g depth)
            (depth + 1) move_list alpha beta (Score.MIN + 1) rest pv h
          ⟨o.score, move_list :: o.stack, o.pv, o.hist⟩

/-- `Search::negamax` (src/search/src/search.rs lines 11-34): allocate the
scratch stack and the triangular principal-variation buffer filled with
null moves, run the recursion, negate the result once when black is to
move at the root, and truncate the buffer to the first `depth` slots. -/
def negamax (g : Game P M) (pos_history : Hist P) (depth : Nat) :
    Score × List M :=
  let move_list_stack := List.replicate depth ([] : List M)
  let pv_size := depth * (depth + 1) / 2
  let principal_variation := List.replicate pv_size g.null_move
  let o := negamax_recursive g depth move_list_stack principal_variation
    pos_history
  let eval := match g.side_to_move pos_history.cur with
    | Side.White => o.score
    | Side.Black => -o.score
  (eval, o.pv.take depth)

/-- `Search::alpha_beta` (src/search/src/search.rs lines 36-65): same as
`negamax` but running the pruned recursion on the root window
`(Score::MIN + 1, Score::MAX)`, negated for black. -/
def alpha_beta (g : Game P M) (pos_history : Hist P) (depth : Nat) :
    Score × List M :=
  let move_list_stack := List.replicate depth ([] : List M)
  let pv_size := depth * (depth + 1) / 2
  let principal_variation := List.replicate pv_size g.null_move
  let alpha := Score.MIN + 1
  let beta := Score.MAX
  let o := match g.side_to_move pos_history.cur with
    | Side.White => alpha_beta_recursive g depth alpha beta move_list_stack
        principal_variation pos_history
    | Side.Black => alpha_beta_recursive g depth (-beta) (-alpha)
        move_list_stack principal_variation pos_history
  let eval := match g.side_to_move pos_history.cur with
    | Side.White => o.score
    | Side.Black => -o.score
  (eval, o.pv.take depth)

/-! ### Triangular-buffer arithmetic -/

/-- Size of the triangular principal-variation region for depth `d`,
`d * (d + 1) / 2` (spec section 3). -/
def tri (d : Nat) : Nat := d * (d + 1) / 2

theorem tri_succ (d : Nat) : tri (d + 1) = tri d + (d + 1) := by
  obtain ⟨r, hr⟩ := Nat.even_mul_succ_self d
  have hx : (d + 1) * (d + 1 + 1) = d * (d + 1) + (d + 1) + (d + 1) := by ring
  simp only [tri]
  rw [hx, hr]
  omega

theorem le_tri (d : Nat) : d ≤ tri d := by
  induction d with
  | zero => simp [tri]
  | succ d ih => rw [tri_succ]; omega

theorem tri_mono {a b : Nat} (h : a ≤ b) : tri a ≤ tri b := by
  induction b with
  | zero => simp_all
  | succ b ih =>
      rw [tri_succ]
      rcases Nat.lt_or_ge a (b + 1) with hab | hab
      · have := ih (by omega); omega
      · have : a = b + 1 := by omega
        subst this; rw [tri_succ]

theorem two_mul_le_tri_succ (d : Nat) : 2 * (d + 1) ≤ tri (d + 1) + 1 := by
  induction d with
  | zero => simp [tri]
  | succ d ih => rw [tri_succ]; omega

theorem Hist.undo_do (g : Game P M) (h : Hist P) (m : M) :
    (h.do_move g m).undo_last_move = h := rfl

/-! ### Characterizing the principal-variation update -/

/-- One slot-copying fold of the kind `pv_update` performs: writes go to
positions `idx + i` for `i` running over `1, …, k`, each read position
`r i` lies strictly beyond every write.  The fold preserves the length,
leaves positions outside `idx + 1, …, idx + k` untouched, and fills the
written positions from the base list. -/
theorem pv_fold_spec (idx : Nat) (nm : M) (r : Nat → Nat) :
    ∀ (k : Nat) (b : List M), (∀ i, 1 ≤ i → i ≤ k → idx + k < r i) →
      (((List.range' 1 k).foldl
          (fun acc i => acc.set (idx + i) (acc.getD (r i) nm)) b).length
        = b.length) ∧
      (∀ j, j < idx + 1 ∨ idx + k < j →
        ((List.range' 1 k).foldl
          (fun acc i => acc.set (idx + i) (acc.getD (r i) nm)) b)[j]?
          = b[j]?) ∧
      (∀ i, 1 ≤ i → i ≤ k →
        ((List.range' 1 k).foldl
          (fun acc i => acc.set (idx + i) (acc.getD (r i) nm)) b)[idx + i]?
          = if idx + i < b.length then some (b.getD (r i) nm) else none) := by
  intro k
  induction k with
  | zero =>
      intro b _
      refine ⟨rfl, fun j _ => rfl, fun i h1 h2 => by omega⟩
  | succ k ih =>
      intro b hr
      have hr' : ∀ i, 1 ≤ i → i ≤ k → idx + k < r i := by
        intro i h1 h2
        have := hr i h1 (by omega)
        omega
      obtain ⟨ihlen, ihframe, ihrow⟩ := ih b hr'
      rw [List.range'_1_concat, List.foldl_append]
      set F := (List.range' 1 k).foldl
        (fun acc i => acc.set (idx + i) (acc.getD (r i) nm)) b with hF
      simp only [List.foldl_cons, List.foldl_nil]
      have hread : F.getD (r (1 + k)) nm = b.getD (r (1 + k)) nm := by
        have hpos : idx + k < r (1 + k) := by
          have := hr (1 + k) (by omega) (by omega)
          have h1k : 1 + k = k + 1 := by omega
          omega
        rw [List.getD_eq_getElem?_getD, List.getD_eq_getElem?_getD,
          ihframe (r (1 + k)) (Or.inr hpos)]
      refine ⟨?_, ?_, ?_⟩
      · rw [List.length_set, ihlen]
      · intro j hj
        have hne : idx + (1 + k) ≠ j := by omega
        rw [List.getElem?_set_ne hne]
        exact ihframe j (by omega)
      · intro i h1 h2
        rcases Nat.lt_or_ge i (k + 1) with hik | hik
        · have hne : idx + (1 + k) ≠ idx + i := by omega
          rw [List.getElem?_set_ne hne]
          exact ihrow i h1 (by omega)
        · have hieq : i = 1 + k := by omega
          subst hieq
          rw [List.getElem?_set, if_pos rfl, ihlen, hread]

theorem pv_update_length (g : Game P M) (pv : List M) (depth : Nat) (m : M) :
    (pv_update g pv depth m).length = pv.length := by
  simp only [pv_update]
  have h := (pv_fold_spec (pv.length - depth * (depth + 1) / 2) g.null_move
    (fun i => pv.length - depth * (depth + 1) / 2 + i + depth - 1)
    (depth - 1) (pv.set (pv.length - depth * (depth + 1) / 2) m)
    (fun i h1 h2 => by dsimp only; omega)).1
  rw [h, List.length_set]

theorem pv_update_getElem_lt (g : Game P M) (pv : List M) (depth : Nat)
    (m : M) (j : Nat) (hj : j < pv.length - depth * (depth + 1) / 2) :
    (pv_update g pv depth m)[j]? = pv[j]? := by
  simp only [pv_update]
  have h := (pv_fold_spec (pv.length - depth * (depth + 1) / 2) g.null_move
    (fun i => pv.length - depth * (depth + 1) / 2 + i + depth - 1)
    (depth - 1) (pv.set (pv.length - depth * (depth + 1) / 2) m)
    (fun i h1 h2 => by dsimp only; omega)).2.1
  rw [h j (Or.inl (by omega)), List.getElem?_set_ne (by omega)]

theorem pv_update_getElem_hi (g : Game P M) (pv : List M) (depth : Nat)
    (m : M) (j : Nat) (hd : 1 ≤ depth)
    (hj : pv.length - depth * (depth + 1) / 2 + depth ≤ j) :
    (pv_update g pv depth m)[j]? = pv[j]? := by
  simp only [pv_update]
  have h := (pv_fold_spec (pv.length - depth * (depth + 1) / 2) g.null_move
    (fun i => pv.length - depth * (depth + 1) / 2 + i + depth - 1)
    (depth - 1) (pv.set (pv.length - depth * (depth + 1) / 2) m)
    (fun i h1 h2 => by dsimp only; omega)).2.1
  rw [h j (Or.inr (by omega)), List.getElem?_set_ne (by omega)]

theorem pv_update_getElem_head (g : Game P M) (pv : List M) (depth : Nat)
    (m : M) (hd : 1 ≤ depth) (hlen : tri depth ≤ pv.length) :
    (pv_update g pv depth m)[pv.length - tri depth]? = some m := by
  simp only [pv_update]
  have htri : depth * (depth + 1) / 2 = tri depth := rfl
  have h := (pv_fold_spec (pv.length - depth * (depth + 1) / 2) g.null_move
    (fun i => pv.length - depth * (depth + 1) / 2 + i + depth - 1)
    (depth - 1) (pv.set (pv.length - depth * (depth + 1) / 2) m)
    (fun i h1 h2 => by dsimp only; omega)).2.1
  rw [htri] at h ⊢
  rw [h (pv.length - tri depth) (Or.inl (by omega))]
  have h1 : 1 ≤ tri depth := le_trans hd (le_tri depth)
  exact List.getElem?_set_self (by omega)

theorem pv_update_getElem_row (g : Game P M) (pv : List M) (depth : Nat)
    (m : M) (i : Nat) (h1 : 1 ≤ i) (h2 : i ≤ depth - 1)
    (hlen : tri depth ≤ pv.length) :
    (pv_update g pv depth m)[pv.length - tri depth + i]?
      = some (pv.getD (pv.length - tri depth + i + depth - 1) g.null_move)
      := by
  simp only [pv_update]
  have htri : depth * (depth + 1) / 2 = tri depth := rfl
  have hd : 2 ≤ depth := by omega
  have h := (pv_fold_spec (pv.length - depth * (depth + 1) / 2) g.null_move
    (fun i => pv.length - depth * (depth + 1) / 2 + i + depth - 1)
    (depth - 1) (pv.set (pv.length - depth * (depth + 1) / 2) m)
    (fun i h1 h2 => by dsimp only; omega)).2.2
  rw [htri] at h ⊢
  rw [h i h1 h2]
  have hd1 : depth - 1 + 1 = depth := by omega
  have htd : depth ≤ tri depth := le_tri depth
  rw [if_pos (by rw [List.length_set]; omega)]
  congr 1
  rw [List.getD_eq_getElem?_getD, List.getD_eq_getElem?_getD,
    List.getElem?_set_ne (by omega)]

/-! ### Rows of the triangular buffer -/

/-- The row of the principal-variation buffer owned by depth `d`: the `d`
consecutive slots starting at index `length - tri d` (spec section 4.3). -/
def row (pv : List M) (d : Nat) (nm : M) : List M :=
  (List.range' (pv.length - tri d) d).map (fun j => pv.getD j nm)

theorem map_range'_congr {α : Type} (f fh : Nat → α) :
    ∀ (n a b : Nat), (∀ t, t < n → f (a + t) = fh (b + t)) →
      (List.range' a n).map f = (List.range' b n).map fh := by
  intro n
  induction n with
  | zero => intro a b _; rfl
  | succ n ih =>
      intro a b hfh
      rw [List.range'_succ, List.range'_succ, List.map_cons, List.map_cons]
      have h0 := hfh 0 (by omega)
      simp only [Nat.add_zero] at h0
      rw [h0]
      congr 1
      refine ih (a + 1) (b + 1) (fun t ht => ?_)
      have := hfh (t + 1) (by omega)
      have e1 : a + (t + 1) = a + 1 + t := by omega
      have e2 : b + (t + 1) = b + 1 + t := by omega
      rwa [e1, e2] at this

theorem row_length (pv : List M) (d : Nat) (nm : M) :
    (row pv d nm).length = d := by
  simp [row]

theorem take_eq_map_range (nm : M) :
    ∀ (D : Nat) (pv : List M), D ≤ pv.length →
      pv.take D = (List.range' 0 D).map (fun j => pv.getD j nm) := by
  intro D
  induction D with
  | zero => intro pv _; rfl
  | succ D ih =>
      intro pv hD
      rw [List.take_succ, List.range'_1_concat, List.map_append,
        ← ih pv (by omega)]
      congr 1
      have hlt : D < pv.length := by omega
      rw [List.getElem?_eq_getElem hlt]
      simp [List.getD_eq_getElem?_getD, List.getElem?_eq_getElem hlt]

/-- When the buffer is exactly the triangular size for depth `D`, the first
`D` slots are the row owned by the root depth. -/
theorem take_eq_row (pv : List M) (D : Nat) (nm : M)
    (hlen : pv.length = tri D) :
    pv.take D = row pv D nm := by
  have hD : D ≤ pv.length := by rw [hlen]; exact le_tri D
  rw [take_eq_map_range nm D pv hD, row, hlen]
  simp

/-- Updating the buffer on an improving move at depth `d` makes the row of
depth `d` start with that move and continue with the (old) row of depth
`d - 1`. -/
theorem row_pv_update (g : Game P M) (pv : List M) (d : Nat) (m : M)
    (hd : 1 ≤ d) (hlen : tri d ≤ pv.length) :
    row (pv_update g pv d m) d g.null_move
      = m :: row pv (d - 1) g.null_move := by
  have hd1 : d - 1 + 1 = d := by omega
  have htd : tri d = tri (d - 1) + d := by
    have := tri_succ (d - 1)
    rw [hd1] at this
    omega
  unfold row
  rw [pv_update_length]
  have hsp : List.range' (pv.length - tri d) d
      = (pv.length - tri d) :: List.range' (pv.length - tri d + 1) (d - 1) := by
    conv_lhs => rw [← hd1]
    rw [List.range'_succ, hd1]
  rw [hsp, List.map_cons]
  congr 1
  · rw [List.getD_eq_getElem?_getD, pv_update_getElem_head g pv d m hd hlen]
    rfl
  · refine map_range'_congr _ _ (d - 1)
      (pv.length - tri d + 1) (pv.length - tri (d - 1)) (fun t ht => ?_)
    have hrow := pv_update_getElem_row g pv d m (t + 1) (by omega) (by omega)
      hlen
    have e1 : pv.length - tri d + 1 + t = pv.length - tri d + (t + 1) := by
      omega
    rw [e1, List.getD_eq_getElem?_getD, hrow]
    have e2 : pv.length - tri d + (t + 1) + d - 1
        = pv.length - tri (d - 1) + t := by omega
    rw [e2]
    rfl

/-- Rows above the region a recursive call may touch are unaffected by any
transformation that agrees with the original buffer below a bound. -/
theorem row_eq_of_agree (pv pv' : List M) (nm : M) (e B : Nat)
    (hlen : pv'.length = pv.length)
    (hagree : ∀ j, j < B → pv'[j]? = pv[j]?)
    (hB : pv.length - tri e + e ≤ B) :
    row pv' e nm = row pv e nm := by
  unfold row
  rw [hlen]
  refine map_range'_congr _ _ e (pv.length - tri e) (pv.length - tri e)
    (fun t ht => ?_)
  rw [List.getD_eq_getElem?_getD, List.getD_eq_getElem?_getD,
    hagree (pv.length - tri e + t) (by omega)]

/-! ### Unfolding equations for the search functions -/

theorem negamax_loop_nil (g : Game P M)
    (child : List (List M) → List M → Hist P → SOut P M) (depth : Nat)
    (mx : Score) (st : List (List M)) (pv : List M) (h : Hist P) :
    negamax_loop g child depth [] mx st pv h = ⟨mx, st, pv, h⟩ := rfl

theorem negamax_loop_cons (g : Game P M)
    (child : List (List M) → List M → Hist P → SOut P M) (depth : Nat)
    (m : M) (ms : List M) (mx : Score) (st : List (List M)) (pv : List M)
    (h : Hist P) :
    negamax_loop g child depth (m :: ms) mx st pv h =
      if -(child st pv (h.do_move g m)).score > mx then
        negamax_loop g child depth ms (-(child st pv (h.do_move g m)).score)
          (child st pv (h.do_move g m)).stack
          (pv_update g (child st pv (h.do_move g m)).pv depth m)
          (child st pv (h.do_move g m)).hist.undo_last_move
      else
        negamax_loop g child depth ms mx
          (child st pv (h.do_move g m)).stack
          (child st pv (h.do_move g m)).pv
          (child st pv (h.do_move g m)).hist.undo_last_move := rfl

theorem negamax_recursive_zero (g : Game P M) (st : List (List M))
    (pv : List M) (h : Hist P) :
    negamax_recursive g 0 st pv h = ⟨g.eval_relative h.cur, st, pv, h⟩ := rfl

theorem negamax_recursive_succ_nil (g : Game P M) (d : Nat) (pv : List M)
    (h : Hist P) :
    negamax_recursive g (d + 1) [] pv h = ⟨Score.MIN, [], pv, h⟩ := rfl

theorem negamax_recursive_succ_cons (g : Game P M) (d : Nat)
    (ml : List M) (rest : List (List M)) (pv : List M) (h : Hist P) :
    negamax_recursive g (d + 1) (ml :: rest) pv h =
      ⟨(negamax_loop g (negamax_recursive g d) (d + 1)
          (g.generate_moves h.cur) Score.MIN rest pv h).score,
        g.generate_moves h.cur ::
          (negamax_loop g (negamax_recursive g d) (d + 1)
            (g.generate_moves h.cur) Score.MIN rest pv h).stack,
        (negamax_loop g (negamax_recursive g d) (d + 1)
          (g.generate_moves h.cur) Score.MIN rest pv h).pv,
        (negamax_loop g (negamax_recursive g d) (d + 1)
          (g.generate_moves h.cur) Score.MIN rest pv h).hist⟩ := rfl

theorem alpha_beta_loop_nil (g : Game P M)
    (child : Score → Score → List (List M) → List M → Hist P → SOut P M)
    (depth : Nat) (alpha beta score : Score) (st : List (List M))
    (pv : List M) (h : Hist P) :
    alpha_beta_loop g child depth [] alpha beta score st pv h
      = ⟨score, st, pv, h⟩ := rfl

theorem alpha_beta_loop_cons (g : Game P M)
    (child : Score → Score → List (List M) → List M → Hist P → SOut P M)
    (depth : Nat) (m : M) (ms : List M) (alpha beta score : Score)
    (st : List (List M)) (pv : List M) (h : Hist P) :
    alpha_beta_loop g child depth (m :: ms) alpha beta score st pv h =
      if -(child (-beta) (-alpha) st pv (h.do_move g m)).score ≥ beta then
        ⟨beta, (child (-beta) (-alpha) st pv (h.do_move g m)).stack,
          (child (-beta) (-alpha) st pv (h.do_move g m)).pv,
          (child (-beta) (-alpha) st pv
            (h.do_move g m)).hist.undo_last_move⟩
      else if -(child (-beta) (-alpha) st pv (h.do_move g m)).score > alpha
        then
        alpha_beta_loop g child depth ms
          (-(child (-beta) (-alpha) st pv (h.do_move g m)).score) beta
          (-(child (-beta) (-alpha) st pv (h.do_move g m)).score)
          (child (-beta) (-alpha) st pv (h.do_move g m)).stack
          (pv_update g
            (child (-beta) (-alpha) st pv (h.do_move g m)).pv depth m)
          (child (-beta) (-alpha) st pv (h.do_move g m)).hist.undo_last_move
      else
        alpha_beta_loop g child depth ms alpha beta score
          (child (-beta) (-alpha) st pv (h.do_move g m)).stack
          (child (-beta) (-alpha) st pv (h.do_move g m)).pv
          (child (-beta) (-alpha) st pv
            (h.do_move g m)).hist.undo_last_move := rfl

theorem alpha_beta_recursive_zero (g : Game P M) (alpha beta : Score)
    (st : List (List M)) (pv : List M) (h : Hist P) :
    alpha_beta_recursive g 0 alpha beta st pv h
      = ⟨g.eval_relative h.cur, st, pv, h⟩ := rfl

theorem alpha_beta_recursive_succ_nil (g : Game P M) (d : Nat)
    (alpha beta : Score) (pv : List M) (h : Hist P) :
    alpha_beta_recursive g (d + 1) alpha beta [] pv h
      = ⟨Score.MIN + 1, [], pv, h⟩ := rfl

theorem alpha_beta_recursive_succ_cons (g : Game P M) (d : Nat)
    (alpha beta : Score) (ml : List M) (rest : List (List M)) (pv : List M)
    (h : Hist P) :
    alpha_beta_recursive g (d + 1) alpha beta (ml :: rest) pv h =
      ⟨(alpha_beta_loop g (alpha_beta_recursive g d) (d + 1)
          (g.generate_moves h.cur) alpha beta (Score.MIN + 1) rest pv
          h).score,
        g.generate_moves h.cur ::
          (alpha_beta_loop g (alpha_beta_recursive g d) (d + 1)
            (g.generate_moves h.cur) alpha beta (Score.MIN + 1) rest pv
            h).stack,
        (alpha_beta_loop g (alpha_beta_recursive g d) (d + 1)
          (g.generate_moves h.cur) alpha beta (Score.MIN + 1) rest pv
          h).pv,
        (alpha_beta_loop g (alpha_beta_recursive g d) (d + 1)
          (g.generate_moves h.cur) alpha beta (Score.MIN + 1) rest pv
          h).hist⟩ := rfl

/-! ### State restoration and buffer frame conditions -/

/-- Property of a recursive call at depth `d`: the history is restored, the
scratch-stack length and buffer length are preserved, and the buffer is
untouched below the region owned by depths up to `d`. -/
def StateOk (d : Nat)
    (f : List (List M) → List M → Hist P → SOut P M) : Prop :=
  ∀ (st : List (List M)) (pv : List M) (h : Hist P),
    (f st pv h).hist = h ∧
    (f st pv h).stack.length = st.length ∧
    (f st pv h).pv.length = pv.length ∧
    (∀ j, j < pv.length - tri d → (f st pv h).pv[j]? = pv[j]?)

theorem negamax_loop_state (g : Game P M)
    (child : List (List M) → List M → Hist P → SOut P M) (d : Nat)
    (hchild : StateOk d child) :
    ∀ (ms : List M) (mx : Score) (st : List (List M)) (pv : List M)
      (h : Hist P),
      (negamax_loop g child (d + 1) ms mx st pv h).hist = h ∧
      (negamax_loop g child (d + 1) ms mx st pv h).stack.length
        = st.length ∧
      (negamax_loop g child (d + 1) ms mx st pv h).pv.length = pv.length ∧
      (∀ j, j < pv.length - tri (d + 1) →
        (negamax_loop g child (d + 1) ms mx st pv h).pv[j]? = pv[j]?) := by
  intro ms
  induction ms with
  | nil =>
      intro mx st pv h
      rw [negamax_loop_nil]
      exact ⟨rfl, rfl, rfl, fun j _ => rfl⟩
  | cons m ms ih =>
      intro mx st pv h
      obtain ⟨hch, hcs, hcp, hcf⟩ := hchild st pv (h.do_move g m)
      rw [negamax_loop_cons]
      set o := child st pv (h.do_move g m) with ho
      have hundo : o.hist.undo_last_move = h := by
        rw [hch]; exact Hist.undo_do g h m
      have htsucc := tri_succ d
      by_cases hgt : -o.score > mx
      · rw [if_pos hgt, hundo]
        obtain ⟨i1, i2, i3, i4⟩ := ih (-o.score) o.stack
          (pv_update g o.pv (d + 1) m) h
        refine ⟨i1, ?_, ?_, ?_⟩
        · rw [i2, hcs]
        · rw [i3, pv_update_length, hcp]
        · intro j hj
          rw [i4 j (by rw [pv_update_length, hcp]; exact hj)]
          rw [pv_update_getElem_lt g o.pv (d + 1) m j
            (by rw [hcp]; exact hj)]
          exact hcf j (by omega)
      · rw [if_neg hgt, hundo]
        obtain ⟨i1, i2, i3, i4⟩ := ih mx o.stack o.pv h
        refine ⟨i1, ?_, ?_, ?_⟩
        · rw [i2, hcs]
        · rw [i3, hcp]
        · intro j hj
          rw [i4 j (by rw [hcp]; exact hj)]
          exact hcf j (by omega)

theorem negamax_recursive_state (g : Game P M) :
    ∀ d : Nat, StateOk d (negamax_recursive g d) := by
  intro d
  induction d with
  | zero =>
      intro st pv h
      rw [negamax_recursive_zero]
      exact ⟨rfl, rfl, rfl, fun j _ => rfl⟩
  | succ d ih =>
      intro st pv h
      cases st with
      | nil =>
          rw [negamax_recursive_succ_nil]
          exact ⟨rfl, rfl, rfl, fun j _ => rfl⟩
      | cons ml rest =>
          rw [negamax_recursive_succ_cons]
          obtain ⟨l1, l2, l3, l4⟩ := negamax_loop_state g
            (negamax_recursive g d) d ih (g.generate_moves h.cur)
            Score.MIN rest pv h
          exact ⟨l1, by simpa using l2, l3, l4⟩

theorem alpha_beta_loop_state (g : Game P M)
    (child : Score → Score → List (List M) → List M → Hist P → SOut P M)
    (d : Nat) (hchild : ∀ a b : Score, StateOk d (child a b)) :
    ∀ (ms : List M) (alpha beta score : Score) (st : List (List M))
      (pv : List M) (h : Hist P),
      (alpha_beta_loop g child (d + 1) ms alpha beta score st pv h).hist
        = h ∧
      (alpha_beta_loop g child (d + 1) ms alpha beta score st pv
        h).stack.length = st.length ∧
      (alpha_beta_loop g child (d + 1) ms alpha beta score st pv
        h).pv.length = pv.length ∧
      (∀ j, j < pv.length - tri (d + 1) →
        (alpha_beta_loop g child (d + 1) ms alpha beta score st pv
          h).pv[j]? = pv[j]?) := by
  intro ms
  induction ms with
  | nil =>
      intro alpha beta score st pv h
      rw [alpha_beta_loop_nil]
      exact ⟨rfl, rfl, rfl, fun j _ => rfl⟩
  | cons m ms ih =>
      intro alpha beta score st pv h
      obtain ⟨hch, hcs, hcp, hcf⟩ := hchild (-beta) (-alpha) st pv
        (h.do_move g m)
      rw [alpha_beta_loop_cons]
      set o := child (-beta) (-alpha) st pv (h.do_move g m) with ho
      have hundo : o.hist.undo_last_move = h := by
        rw [hch]; exact Hist.undo_do g h m
      have htsucc := tri_succ d
      by_cases hcut : -o.score ≥ beta
      · rw [if_pos hcut]
        refine ⟨hundo, hcs, hcp, ?_⟩
        intro j hj
        exact hcf j (by omega)
      · rw [if_neg hcut]
        by_cases hgt : -o.score > alpha
        · rw [if_pos hgt, hundo]
          obtain ⟨i1, i2, i3, i4⟩ := ih (-o.score) beta (-o.score) o.stack
            (pv_update g o.pv (d + 1) m) h
          refine ⟨i1, ?_, ?_, ?_⟩
          · rw [i2, hcs]
          · rw [i3, pv_update_length, hcp]
          · intro j hj
            rw [i4 j (by rw [pv_update_length, hcp]; exact hj)]
            rw [pv_update_getElem_lt g o.pv (d + 1) m j
              (by rw [hcp]; exact hj)]
            exact hcf j (by omega)
        · rw [if_neg hgt, hundo]
          obtain ⟨i1, i2, i3, i4⟩ := ih alpha beta score o.stack o.pv h
          refine ⟨i1, ?_, ?_, ?_⟩
          · rw [i2, hcs]
          · rw [i3, hcp]
          · intro j hj
            rw [i4 j (by rw [hcp]; exact hj)]
            exact hcf j (by omega)

theorem alpha_beta_recursive_state (g : Game P M) :
    ∀ (d : Nat) (alpha beta : Score),
      StateOk d (alpha_beta_recursive g d alpha beta) := by
  intro d
  induction d with
  | zero =>
      intro alpha beta st pv h
      rw [alpha_beta_recursive_zero]
      exact ⟨rfl, rfl, rfl, fun j _ => rfl⟩
  | succ d ih =>
      intro alpha beta st pv h
      cases st with
      | nil =>
          rw [alpha_beta_recursive_succ_nil]
          exact ⟨rfl, rfl, rfl, fun j _ => rfl⟩
      | cons ml rest =>
          rw [alpha_beta_recursive_succ_cons]
          obtain ⟨l1, l2, l3, l4⟩ := alpha_beta_loop_state g
            (alpha_beta_recursive g d) d ih (g.generate_moves h.cur)
            alpha beta (Score.MIN + 1) rest pv h
          exact ⟨l1, by simpa using l2, l3, l4⟩

/-! ### The pure negamax value of the game tree -/

/-- The game-theoretic value explored to a fixed depth, defined directly on
the game tree: at depth 0 the side-relative evaluation, otherwise the
running maximum, starting from `Score::MIN`, of the negated child values
over the legal moves (spec section 4.3). -/
def value (g : Game P M) : Nat → P → Score
  | 0, p => g.eval_relative p
  | d + 1, p =>
      (g.generate_moves p).foldl
        (fun mx m => max mx (-value g d (g.make_move p m))) Score.MIN

theorem value_zero (g : Game P M) (p : P) :
    value g 0 p = g.eval_relative p := rfl

theorem value_succ (g : Game P M) (d : Nat) (p : P) :
    value g (d + 1) p
      = (g.generate_moves p).foldl
          (fun mx m => max mx (-value g d (g.make_move p m))) Score.MIN :=
  rfl

theorem if_gt_eq_max (a b : Score) : (if b > a then b else a) = max a b := by
  rcases lt_or_ge a b with hab | hab
  · rw [if_pos hab, max_eq_right hab.le]
  · rw [if_neg (not_lt.mpr hab), max_eq_left hab]

theorem foldl_max_init (f : M → Score) :
    ∀ (ms : List M) (a b : Score),
      ms.foldl (fun acc m => max acc (f m)) (max a b)
        = max (ms.foldl (fun acc m => max acc (f m)) a) b := by
  intro ms
  induction ms with
  | nil => intro a b; rfl
  | cons m ms ih =>
      intro a b
      simp only [List.foldl_cons]
      have hcomm : max (max a b) (f m) = max (max a (f m)) b := by
        rw [max_assoc, max_comm b (f m), ← max_assoc]
      rw [hcomm]
      exact ih (max a (f m)) b

theorem foldl_max_le (f : M → Score) :
    ∀ (ms : List M) (a c : Score), a ≤ c → (∀ m ∈ ms, f m ≤ c) →
      ms.foldl (fun acc m => max acc (f m)) a ≤ c := by
  intro ms
  induction ms with
  | nil => intro a c ha _; exact ha
  | cons m ms ih =>
      intro a c ha hf
      simp only [List.foldl_cons]
      refine ih (max a (f m)) c (max_le ha (hf m (by simp))) ?_
      intro x hx
      exact hf x (by simp [hx])

theorem foldl_max_ge_init (f : M → Score) :
    ∀ (ms : List M) (a : Score),
      a ≤ ms.foldl (fun acc m => max acc (f m)) a := by
  intro ms
  induction ms with
  | nil => intro a; exact le_refl a
  | cons m ms ih =>
      intro a
      simp only [List.foldl_cons]
      exact le_trans (le_max_left a (f m)) (ih (max a (f m)))

theorem foldl_max_ge_elem (f : M → Score) :
    ∀ (ms : List M) (a : Score) (m : M), m ∈ ms →
      f m ≤ ms.foldl (fun acc m => max acc (f m)) a := by
  intro ms
  induction ms with
  | nil => intro a m hm; simp at hm
  | cons x ms ih =>
      intro a m hm
      simp only [List.foldl_cons]
      rcases List.mem_cons.mp hm with hx | hx
      · subst hx
        exact le_trans (le_max_right a (f m)) (foldl_max_ge_init f ms _)
      · exact ih (max a (f x)) m hx

theorem MIN_lt_MAX : Score.MIN < Score.MAX := by decide

theorem neg_MIN_succ : -(Score.MIN + 1) = Score.MAX := by decide

theorem neg_MAX : -Score.MAX = Score.MIN + 1 := by decide

/-- Range of the tree value: when the evaluator stays in
`(Score::MIN, Score::MAX]` and every position has at least one legal move,
every tree value stays in `(Score::MIN, Score::MAX]`. -/
theorem value_range (g : Game P M)
    (hev : ∀ p, Score.MIN < g.eval_relative p
      ∧ g.eval_relative p ≤ Score.MAX)
    (hmv : ∀ p, g.generate_moves p ≠ []) :
    ∀ (d : Nat) (p : P),
      Score.MIN < value g d p ∧ value g d p ≤ Score.MAX := by
  intro d
  induction d with
  | zero => intro p; exact hev p
  | succ d ih =>
      intro p
      rw [value_succ]
      constructor
      · obtain ⟨m, ms, hms⟩ := List.exists_cons_of_ne_nil (hmv p)
        have hmem : m ∈ g.generate_moves p := by rw [hms]; simp
        have hge : -value g d (g.make_move p m)
            ≤ (g.generate_moves p).foldl
                (fun mx m => max mx (-value g d (g.make_move p m)))
                Score.MIN :=
          foldl_max_ge_elem (fun m => -value g d (g.make_move p m))
            (g.generate_moves p) Score.MIN m hmem
        obtain ⟨hv1, hv2⟩ := ih (g.make_move p m)
        have hneg : Score.MIN < -value g d (g.make_move p m) := by
          have h1 : -Score.MAX ≤ -value g d (g.make_move p m) :=
            neg_le_neg hv2
          exact lt_of_lt_of_le (by decide) h1
        exact lt_of_lt_of_le hneg hge
      · refine foldl_max_le _ _ _ Score.MAX (le_of_lt MIN_lt_MAX) ?_
        intro m _
        show -value g d (g.make_move p m) ≤ Score.MAX
        obtain ⟨hv1, hv2⟩ := ih (g.make_move p m)
        rw [← neg_MIN_succ]
        exact neg_le_neg (Int.add_one_le_iff.mpr hv1)

/-- The score computed by the negamax move loop is the running maximum of
the negated child values. -/
theorem negamax_loop_score (g : Game P M)
    (child : List (List M) → List M → Hist P → SOut P M) (d : Nat)
    (hchild_score : ∀ st pv h, d ≤ st.length →
      (child st pv h).score = value g d h.cur)
    (hchild_state : StateOk d child) :
    ∀ (ms : List M) (mx : Score) (st : List (List M)) (pv : List M)
      (h : Hist P), d ≤ st.length →
      (negamax_loop g child (d + 1) ms mx st pv h).score
        = ms.foldl
            (fun acc m => max acc (-value g d (g.make_move h.cur m))) mx
      := by
  intro ms
  induction ms with
  | nil => intro mx st pv h _; rw [negamax_loop_nil, List.foldl_nil]
  | cons m ms ih =>
      intro mx st pv h hst
      obtain ⟨hch, hcs, hcp, hcf⟩ := hchild_state st pv (h.do_move g m)
      rw [negamax_loop_cons]
      set o := child st pv (h.do_move g m) with ho
      have hundo : o.hist.undo_last_move = h := by
        rw [hch]; exact Hist.undo_do g h m
      have hos : o.score = value g d (g.make_move h.cur m) :=
        hchild_score st pv (h.do_move g m) hst
      have hstack : d ≤ o.stack.length := by rw [hcs]; exact hst
      simp only [List.foldl_cons]
      by_cases hgt : -o.score > mx
      · rw [if_pos hgt, hundo, ih (-o.score) o.stack
          (pv_update g o.pv (d + 1) m) h hstack]
        have : max mx (-value g d (g.make_move h.cur m)) = -o.score := by
          rw [hos] at hgt ⊢
          exact max_eq_right hgt.le
        rw [this]
      · rw [if_neg hgt, hundo, ih mx o.stack o.pv h hstack]
        have : max mx (-value g d (g.make_move h.cur m)) = mx := by
          rw [hos] at hgt
          exact max_eq_left (not_lt.mp hgt)
        rw [this]

/-- `negamax_recursive` computes exactly the tree value whenever the
scratch stack is deep enough. -/
theorem negamax_recursive_score (g : Game P M) :
    ∀ (d : Nat) (st : List (List M)) (pv : List M) (h : Hist P),
      d ≤ st.length →
      (negamax_recursive g d st pv h).score = value g d h.cur := by
  intro d
  induction d with
  | zero => intro st pv h _; rw [negamax_recursive_zero, value_zero]
  | succ d ih =>
      intro st pv h hst
      cases st with
      | nil => simp at hst
      | cons ml rest =>
          rw [negamax_recursive_succ_cons]
          have hrest : d ≤ rest.length := by
            simp at hst; omega
          rw [negamax_loop_score g (negamax_recursive g d) d
            (fun st' pv' h' hst' => ih st' pv' h' hst')
            (negamax_recursive_state g d) (g.generate_moves h.cur)
            Score.MIN rest pv h hrest]
          rw [value_succ]

/-! ### The fail-hard alpha-beta score -/

/-- The score that the fail-hard move loop produces from a window
`(a, b)`, a running score `sc` and the best negated child value `W` of the
remaining moves: `b` on a cutoff, the exact maximum when it improves `a`,
the untouched running score otherwise. -/
def combine (a b sc W : Score) : Score :=
  if b ≤ W then b else if a < W then W else sc

theorem combine_base (a b sc : Score) (ha : Score.MIN < a) (hab : a < b) :
    combine a b sc Score.MIN = sc := by
  unfold combine
  rw [if_neg (by simp only [Score.MIN, Score.MAX, Score] at *; omega),
    if_neg (by simp only [Score.MIN, Score.MAX, Score] at *; omega)]

theorem combine_cut (a b sc W w : Score) (hbw : b ≤ w) :
    combine a b sc (max W w) = b := by
  unfold combine
  rw [if_pos (le_trans hbw (le_max_right W w))]

theorem combine_skip (a b sc W w : Score) (hw : w ≤ a) (hab : a < b) :
    combine a b sc (max W w) = combine a b sc W := by
  rcases le_total w W with h | h
  · rw [max_eq_left h]
  · rw [max_eq_right h]
    unfold combine
    rw [if_neg (by simp only [Score.MIN, Score.MAX, Score] at *; omega),
      if_neg (by simp only [Score.MIN, Score.MAX, Score] at *; omega),
      if_neg (by simp only [Score.MIN, Score.MAX, Score] at *; omega),
      if_neg (by simp only [Score.MIN, Score.MAX, Score] at *; omega)]

theorem combine_improve (a b sc W w : Score) (haw : a < w) (hwb : w < b) :
    combine w b w W = combine a b sc (max W w) := by
  unfold combine
  rcases le_or_lt b W with hbW | hbW
  · rw [if_pos hbW, if_pos (le_trans hbW (le_max_left W w))]
  · rw [if_neg (not_le.mpr hbW)]
    have hmax : ¬b ≤ max W w := by
      rcases le_total W w with h | h
      · rw [max_eq_right h]; exact not_le.mpr hwb
      · rw [max_eq_left h]; exact not_le.mpr hbW
    rw [if_neg hmax, if_pos (lt_of_lt_of_le haw (le_max_right W w))]
    rcases le_total W w with h | h
    · rw [max_eq_right h, if_neg (not_lt.mpr h)]
    · rw [max_eq_left h]
      rcases lt_or_ge w W with h2 | h2
      · rw [if_pos h2]
      · rw [if_neg (not_lt.mpr h2)]
        exact le_antisymm h h2

/-- The fail-hard move loop computes `combine` of the best negated child
value over the remaining moves, provided the recursive child call behaves
like alpha-beta on every valid window. -/
theorem alpha_beta_loop_score (g : Game P M)
    (child : Score → Score → List (List M) → List M → Hist P → SOut P M)
    (d : Nat)
    (hchild : ∀ (a b : Score) (st : List (List M)) (pv : List M)
      (h : Hist P),
      Score.MIN < a → a < b → b ≤ Score.MAX → d ≤ st.length →
      ((value g d h.cur ≤ a → (child a b st pv h).score ≤ a) ∧
       (b ≤ value g d h.cur → b ≤ (child a b st pv h).score) ∧
       (a < value g d h.cur → value g d h.cur < b →
         (child a b st pv h).score = value g d h.cur)))
    (hstate : ∀ a b : Score, StateOk d (child a b))
    (hrange : ∀ p : P, Score.MIN < value g d p ∧ value g d p ≤ Score.MAX) :
    ∀ (ms : List M) (a b sc : Score) (st : List (List M)) (pv : List M)
      (h : Hist P),
      Score.MIN < a → a < b → b ≤ Score.MAX → d ≤ st.length →
      (alpha_beta_loop g child (d + 1) ms a b sc st pv h).score
        = combine a b sc
            (ms.foldl
              (fun acc m => max acc (-value g d (g.make_move h.cur m)))
              Score.MIN) := by
  intro ms
  induction ms with
  | nil =>
      intro a b sc st pv h ha hab hb hst
      rw [alpha_beta_loop_nil, List.foldl_nil, combine_base a b sc ha hab]
  | cons m ms ih =>
      intro a b sc st pv h ha hab hb hst
      have hcur : (h.do_move g m).cur = g.make_move h.cur m := rfl
      obtain ⟨hvm1, hvm2⟩ := hrange (g.make_move h.cur m)
      have hwa : Score.MIN < -b := by
        simp only [Score.MIN, Score.MAX, Score] at *; omega
      have hwb : -b < -a := neg_lt_neg hab
      have hwc : -a ≤ Score.MAX := by
        simp only [Score.MIN, Score.MAX, Score] at *; omega
      obtain ⟨cp1, cp2, cp3⟩ := hchild (-b) (-a) st pv (h.do_move g m)
        hwa hwb hwc hst
      rw [hcur] at cp1 cp2 cp3
      obtain ⟨hsh, hss, hsp, hsf⟩ := hstate (-b) (-a) st pv (h.do_move g m)
      rw [alpha_beta_loop_cons]
      set o := child (-b) (-a) st pv (h.do_move g m) with ho
      have hundo : o.hist.undo_last_move = h := by
        rw [hsh]; exact Hist.undo_do g h m
      have hstack : d ≤ o.stack.length := by rw [hss]; exact hst
      simp only [List.foldl_cons]
      rw [foldl_max_init (fun m => -value g d (g.make_move h.cur m)) ms
        Score.MIN (-value g d (g.make_move h.cur m))]
      by_cases hA : b ≤ -value g d (g.make_move h.cur m)
      · have hv_le : value g d (g.make_move h.cur m) ≤ -b := by
          simp only [Score.MIN, Score.MAX, Score] at *; omega
        have hsc := cp1 hv_le
        have hcut : -o.score ≥ b := by
          simp only [Score.MIN, Score.MAX, Score] at *; omega
        rw [if_pos hcut]
        exact (combine_cut a b sc _ _ hA).symm
      · by_cases hB : -value g d (g.make_move h.cur m) ≤ a
        · have hv_ge : -a ≤ value g d (g.make_move h.cur m) := by
            simp only [Score.MIN, Score.MAX, Score] at *; omega
          have hsc := cp2 hv_ge
          have hnc : ¬-o.score ≥ b := by
            simp only [Score.MIN, Score.MAX, Score] at *; omega
          have hni : ¬-o.score > a := by
            simp only [Score.MIN, Score.MAX, Score] at *; omega
          rw [if_neg hnc, if_neg hni, hundo,
            ih a b sc o.stack o.pv h ha hab hb hstack]
          exact (combine_skip a b sc _ _ hB hab).symm
        · have hv1 : -b < value g d (g.make_move h.cur m) := by
            simp only [Score.MIN, Score.MAX, Score] at *; omega
          have hv2 : value g d (g.make_move h.cur m) < -a := by
            simp only [Score.MIN, Score.MAX, Score] at *; omega
          have hos := cp3 hv1 hv2
          have hnc : ¬-o.score ≥ b := by
            simp only [Score.MIN, Score.MAX, Score] at *; omega
          have hni : -o.score > a := by
            simp only [Score.MIN, Score.MAX, Score] at *; omega
          rw [if_neg hnc, if_pos hni, hundo]
          have hwin1 : Score.MIN < -o.score := by
            simp only [Score.MIN, Score.MAX, Score] at *; omega
          have hwin2 : -o.score < b := by
            simp only [Score.MIN, Score.MAX, Score] at *; omega
          rw [ih (-o.score) b (-o.score) o.stack
            (pv_update g o.pv (d + 1) m) h hwin1 hwin2 hb hstack, hos]
          exact combine_improve a b sc _ _ (by rwa [hos] at hni)
            (by rwa [hos] at hwin2)

/-- `alpha_beta_recursive` evaluates the leaf at depth 0 and otherwise
returns the fail-hard `combine` of the exact tree value against its
window, starting from the running score `Score::MIN + 1`. -/
theorem alpha_beta_recursive_score (g : Game P M)
    (hev : ∀ p, Score.MIN < g.eval_relative p
      ∧ g.eval_relative p ≤ Score.MAX)
    (hmv : ∀ p, g.generate_moves p ≠ []) :
    ∀ (d : Nat) (a b : Score) (st : List (List M)) (pv : List M)
      (h : Hist P),
      Score.MIN < a → a < b → b ≤ Score.MAX → d ≤ st.length →
      (alpha_beta_recursive g d a b st pv h).score
        = (match d with
           | 0 => g.eval_relative h.cur
           | _ + 1 => combine a b (Score.MIN + 1) (value g d h.cur)) := by
  intro d
  induction d with
  | zero =>
      intro a b st pv h _ _ _ _
      rw [alpha_beta_recursive_zero]
  | succ d ih =>
      have hcs : ∀ (a b : Score) (st : List (List M)) (pv : List M)
          (h : Hist P),
          Score.MIN < a → a < b → b ≤ Score.MAX → d ≤ st.length →
          ((value g d h.cur ≤ a →
            (alpha_beta_recursive g d a b st pv h).score ≤ a) ∧
           (b ≤ value g d h.cur →
            b ≤ (alpha_beta_recursive g d a b st pv h).score) ∧
           (a < value g d h.cur → value g d h.cur < b →
            (alpha_beta_recursive g d a b st pv h).score
              = value g d h.cur)) := by
        intro a b st pv h ha hab hb hst
        have hnode := ih a b st pv h ha hab hb hst
        cases d with
        | zero =>
            rw [hnode]
            exact ⟨fun hv => hv, fun hv => hv, fun _ _ => rfl⟩
        | succ e =>
            have hnode' :
                (alpha_beta_recursive g (e + 1) a b st pv h).score
                  = combine a b (Score.MIN + 1) (value g (e + 1) h.cur) :=
              hnode
            refine ⟨?_, ?_, ?_⟩
            · intro hv
              rw [hnode']
              have h1 : ¬b ≤ value g (e + 1) h.cur := by
                simp only [Score.MIN, Score.MAX, Score] at *
                omega
              have h2 : ¬a < value g (e + 1) h.cur := not_lt.mpr hv
              unfold combine
              rw [if_neg h1, if_neg h2]
              simp only [Score.MIN, Score.MAX, Score] at *
              omega
            · intro hv
              rw [hnode']
              unfold combine
              rw [if_pos hv]
            · intro hv1 hv2
              rw [hnode']
              unfold combine
              rw [if_neg (not_le.mpr hv2), if_pos hv1]
      intro a b st pv h ha hab hb hst
      cases st with
      | nil => simp at hst
      | cons ml rest =>
          rw [alpha_beta_recursive_succ_cons]
          have hrest : d ≤ rest.length := by simp at hst; omega
          rw [alpha_beta_loop_score g (alpha_beta_recursive g d) d hcs
            (alpha_beta_recursive_state g d)
            (value_range g hev hmv d) (g.generate_moves h.cur) a b
            (Score.MIN + 1) rest pv h ha hab hb hrest]
          rw [← value_succ]

/-! ### Replaying a line of moves -/

/-- Replaying a list of moves from a position (spec section 8, the PV
replay property). -/
def replay (g : Game P M) (p : P) (ms : List M) : P := ms.foldl g.make_move p

theorem replay_nil (g : Game P M) (p : P) : replay g p [] = p := rfl

theorem replay_cons (g : Game P M) (p : P) (m : M) (ms : List M) :
    replay g p (m :: ms) = replay g (g.make_move p m) ms := rfl

/-- The sign with which a side-relative leaf evaluation enters the score
`d` plies above the leaf: one negation per ply. -/
def sgn (d : Nat) : Score := if d % 2 = 0 then 1 else -1

theorem sgn_succ (d : Nat) : sgn (d + 1) = -sgn d := by
  rcases Nat.mod_two_eq_zero_or_one d with h | h
  · have h1 : (d + 1) % 2 = 1 := by omega
    simp [sgn, h, h1]
  · have h1 : (d + 1) % 2 = 0 := by omega
    simp [sgn, h, h1]

theorem sgn_zero : sgn 0 = 1 := rfl

theorem Side.other_other (s : Side) : Side.other (Side.other s) = s := by
  cases s <;> rfl

/-- Under the side-alternation contract, the side to move after replaying a
line is determined by the parity of its length. -/
theorem side_replay (g : Game P M)
    (halt : ∀ (p : P) (m : M),
      g.side_to_move (g.make_move p m) = Side.other (g.side_to_move p)) :
    ∀ (ms : List M) (p : P),
      g.side_to_move (replay g p ms)
        = if ms.length % 2 = 0 then g.side_to_move p
          else Side.other (g.side_to_move p) := by
  intro ms
  induction ms with
  | nil => intro p; simp [replay_nil]
  | cons m ms ih =>
      intro p
      rw [replay_cons, ih (g.make_move p m), halt p m]
      rcases Nat.mod_two_eq_zero_or_one ms.length with h | h
      · rw [if_pos h, if_neg (by simp [List.length_cons]; omega)]
      · rw [if_neg (by omega), if_pos (by simp [List.length_cons]; omega)]
        rw [Side.other_other]

theorem row_zero (pv : List M) (nm : M) : row pv 0 nm = [] := rfl

/-! ### Principal-variation correctness for negamax -/

/-- Move-loop invariant for the negamax principal variation: once the
running maximum is a real score, the row owned by the current depth
replays to a leaf whose side-relative evaluation carries the maximum; the
loop maintains this and establishes it on the first improvement. -/
theorem negamax_loop_pv (g : Game P M)
    (child : List (List M) → List M → Hist P → SOut P M) (d : Nat)
    (hchild_state : StateOk d child)
    (hchild_score : ∀ st pv h, d ≤ st.length →
      (child st pv h).score = value g d h.cur)
    (hchild_pv : ∀ st pv h, d ≤ st.length → tri d ≤ pv.length →
      (child st pv h).score
        = sgn d * g.eval_relative
            (replay g h.cur (row (child st pv h).pv d g.null_move)))
    (hrange : ∀ p : P, Score.MIN < value g d p ∧ value g d p ≤ Score.MAX) :
    ∀ (ms : List M) (mx : Score) (st : List (List M)) (pv : List M)
      (h : Hist P),
      d ≤ st.length → tri (d + 1) ≤ pv.length → Score.MIN ≤ mx →
      (mx = Score.MIN → ms ≠ []) →
      (Score.MIN < mx →
        mx = sgn (d + 1) * g.eval_relative
          (replay g h.cur (row pv (d + 1) g.null_move))) →
      (negamax_loop g child (d + 1) ms mx st pv h).score
        = sgn (d + 1) * g.eval_relative
            (replay g h.cur
              (row (negamax_loop g child (d + 1) ms mx st pv h).pv (d + 1)
                g.null_move)) := by
  intro ms
  induction ms with
  | nil =>
      intro mx st pv h _ _ hge hne hrel
      rw [negamax_loop_nil]
      have hmx : Score.MIN < mx := by
        rcases lt_or_eq_of_le hge with hlt | heq
        · exact hlt
        · exact absurd rfl (hne heq.symm)
      exact hrel hmx
  | cons m ms ih =>
      intro mx st pv h hst hpv hge hne hrel
      have hcur : (h.do_move g m).cur = g.make_move h.cur m := rfl
      obtain ⟨hvm1, hvm2⟩ := hrange (g.make_move h.cur m)
      obtain ⟨hsh, hss, hsp, hsf⟩ := hchild_state st pv (h.do_move g m)
      rw [negamax_loop_cons]
      set o := child st pv (h.do_move g m) with ho
      have hundo : o.hist.undo_last_move = h := by
        rw [hsh]; exact Hist.undo_do g h m
      have hstack : d ≤ o.stack.length := by rw [hss]; exact hst
      have hos : o.score = value g d (g.make_move h.cur m) := by
        have := hchild_score st pv (h.do_move g m) hst
        rwa [hcur] at this
      have htsucc := tri_succ d
      have hopv : o.pv.length = pv.length := hsp
      by_cases hgt : -o.score > mx
      · rw [if_pos hgt, hundo]
        have hrel2 : -o.score
            = sgn (d + 1) * g.eval_relative
                (replay g h.cur
                  (row (pv_update g o.pv (d + 1) m) (d + 1) g.null_move))
            := by
          have hrow := row_pv_update g o.pv (d + 1) m (by omega)
            (by rw [hopv]; exact hpv)
          have hd1 : d + 1 - 1 = d := rfl
          rw [hd1] at hrow
          rw [hrow, replay_cons]
          have hcpv := hchild_pv st pv (h.do_move g m) hst
            (by omega)
          rw [hcur] at hcpv
          rw [hcpv, sgn_succ]
          ring
        have hminlt : Score.MIN < -o.score := lt_of_le_of_lt hge hgt
        rw [ih (-o.score) o.stack (pv_update g o.pv (d + 1) m) h hstack
          (by rw [pv_update_length, hopv]; exact hpv) (le_of_lt hminlt)
          (fun hc => absurd hc (ne_of_gt hminlt)) (fun _ => hrel2)]
      · have hmx : Score.MIN < mx := by
          simp only [Score.MIN, Score.MAX, Score] at *; omega
        rw [if_neg hgt, hundo]
        have hrowkeep : row o.pv (d + 1) g.null_move
            = row pv (d + 1) g.null_move := by
          refine row_eq_of_agree pv o.pv g.null_move (d + 1)
            (pv.length - tri d) hopv hsf (by omega)
        have hrel3 : Score.MIN < mx → mx = sgn (d + 1) * g.eval_relative
            (replay g h.cur (row o.pv (d + 1) g.null_move)) := by
          intro hlt
          rw [hrowkeep]
          exact hrel hlt
        rw [ih mx o.stack o.pv h hstack (by rw [hopv]; exact hpv) hge
          (fun hc => absurd hc (ne_of_gt hmx)) hrel3]

/-- After a `negamax_recursive` call, the row owned by its depth replays
from the current position to a leaf whose side-relative evaluation,
negated once per ply, is exactly the returned score. -/
theorem negamax_recursive_pv (g : Game P M)
    (hev : ∀ p, Score.MIN < g.eval_relative p
      ∧ g.eval_relative p ≤ Score.MAX)
    (hmv : ∀ p, g.generate_moves p ≠ []) :
    ∀ (d : Nat) (st : List (List M)) (pv : List M) (h : Hist P),
      d ≤ st.length → tri d ≤ pv.length →
      (negamax_recursive g d st pv h).score
        = sgn d * g.eval_relative
            (replay g h.cur
              (row (negamax_recursive g d st pv h).pv d g.null_move)) := by
  intro d
  induction d with
  | zero =>
      intro st pv h _ _
      rw [negamax_recursive_zero, row_zero, replay_nil, sgn_zero]
      show g.eval_relative h.cur = 1 * g.eval_relative h.cur
      ring
  | succ d ih =>
      intro st pv h hst hpv
      cases st with
      | nil => simp at hst
      | cons ml rest =>
          rw [negamax_recursive_succ_cons]
          have hrest : d ≤ rest.length := by simp at hst; omega
          exact negamax_loop_pv g (negamax_recursive g d) d
            (negamax_recursive_state g d)
            (fun st' pv' h' hst' => negamax_recursive_score g d st' pv' h'
              hst')
            (fun st' pv' h' hst' hpv' => ih st' pv' h' hst' hpv')
            (value_range g hev hmv d)
            (g.generate_moves h.cur) Score.MIN rest pv h hrest hpv
            (le_refl _) (fun _ => hmv h.cur)
            (fun hlt => absurd hlt (lt_irrefl _))

/-! ### Principal-variation correctness for alpha-beta -/

/-- The three window bounds of a fail-hard alpha-beta call: a fail-low
stays at or below alpha, a fail-high reaches beta, and a value strictly
inside the window is returned exactly. -/
theorem alpha_beta_recursive_spec (g : Game P M)
    (hev : ∀ p, Score.MIN < g.eval_relative p
      ∧ g.eval_relative p ≤ Score.MAX)
    (hmv : ∀ p, g.generate_moves p ≠ []) (d : Nat) :
    ∀ (a b : Score) (st : List (List M)) (pv : List M) (h : Hist P),
      Score.MIN < a → a < b → b ≤ Score.MAX → d ≤ st.length →
      ((value g d h.cur ≤ a →
        (alpha_beta_recursive g d a b st pv h).score ≤ a) ∧
       (b ≤ value g d h.cur →
        b ≤ (alpha_beta_recursive g d a b st pv h).score) ∧
       (a < value g d h.cur → value g d h.cur < b →
        (alpha_beta_recursive g d a b st pv h).score
          = value g d h.cur)) := by
  intro a b st pv h ha hab hb hst
  have hnode := alpha_beta_recursive_score g hev hmv d a b st pv h
    ha hab hb hst
  cases d with
  | zero =>
      rw [hnode]
      exact ⟨fun hv => hv, fun hv => hv, fun _ _ => rfl⟩
  | succ e =>
      have hnode' : (alpha_beta_recursive g (e + 1) a b st pv h).score
          = combine a b (Score.MIN + 1) (value g (e + 1) h.cur) := hnode
      refine ⟨?_, ?_, ?_⟩
      · intro hv
        rw [hnode']
        have h1 : ¬b ≤ value g (e + 1) h.cur := by
          simp only [Score.MIN, Score.MAX, Score] at *
          omega
        unfold combine
        rw [if_neg h1, if_neg (not_lt.mpr hv)]
        simp only [Score.MIN, Score.MAX, Score] at *
        omega
      · intro hv
        rw [hnode']
        unfold combine
        rw [if_pos hv]
      · intro hv1 hv2
        rw [hnode']
        unfold combine
        rw [if_neg (not_le.mpr hv2), if_pos hv1]

/-- Move-loop invariant for the alpha-beta principal variation under the
guarantee that no remaining move can force a cutoff: when the best negated
child value improves alpha, the loop returns it exactly and the row owned
by the current depth replays to a leaf carrying it; otherwise the loop
returns the running score and leaves that row untouched. -/
theorem alpha_beta_loop_pv (g : Game P M)
    (child : Score → Score → List (List M) → List M → Hist P → SOut P M)
    (d : Nat)
    (hstate : ∀ a b : Score, StateOk d (child a b))
    (hspec : ∀ (a b : Score) (st : List (List M)) (pv : List M)
      (h : Hist P),
      Score.MIN < a → a < b → b ≤ Score.MAX → d ≤ st.length →
      ((value g d h.cur ≤ a → (child a b st pv h).score ≤ a) ∧
       (b ≤ value g d h.cur → b ≤ (child a b st pv h).score) ∧
       (a < value g d h.cur → value g d h.cur < b →
         (child a b st pv h).score = value g d h.cur)))
    (hchild_pv : ∀ (a b : Score) (st : List (List M)) (pv : List M)
      (h : Hist P),
      Score.MIN < a → a < b → b ≤ Score.MAX → d ≤ st.length →
      tri d ≤ pv.length →
      a < value g d h.cur → value g d h.cur < b →
      (child a b st pv h).score = value g d h.cur ∧
      value g d h.cur = sgn d * g.eval_relative
        (replay g h.cur (row (child a b st pv h).pv d g.null_move)))
    (hrange : ∀ p : P, Score.MIN < value g d p ∧ value g d p ≤ Score.MAX) :
    ∀ (ms : List M) (a b sc : Score) (st : List (List M)) (pv : List M)
      (h : Hist P) (W : Score),
      Score.MIN < a → a < b → b ≤ Score.MAX → d ≤ st.length →
      tri (d + 1) ≤ pv.length →
      (∀ m ∈ ms, -value g d (g.make_move h.cur m) < b) →
      W = ms.foldl
        (fun acc m => max acc (-value g d (g.make_move h.cur m)))
        Score.MIN →
      ((a < W →
        (alpha_beta_loop g child (d + 1) ms a b sc st pv h).score = W ∧
        W = sgn (d + 1) * g.eval_relative
          (replay g h.cur
            (row (alpha_beta_loop g child (d + 1) ms a b sc st pv h).pv
              (d + 1) g.null_move))) ∧
       (W ≤ a →
        (alpha_beta_loop g child (d + 1) ms a b sc st pv h).score = sc ∧
        row (alpha_beta_loop g child (d + 1) ms a b sc st pv h).pv (d + 1)
            g.null_move
          = row pv (d + 1) g.null_move)) := by
  intro ms
  induction ms with
  | nil =>
      intro a b sc st pv h W ha hab hb hst hpv hbound hW
      have hWMIN : W = Score.MIN := by rw [hW, List.foldl_nil]
      constructor
      · intro haW
        rw [hWMIN] at haW
        exact absurd haW (not_lt.mpr (le_of_lt ha))
      · intro _
        rw [alpha_beta_loop_nil]
        exact ⟨rfl, rfl⟩
  | cons m ms ih =>
      intro a b sc st pv h W ha hab hb hst hpv hbound hW
      have hcur : (h.do_move g m).cur = g.make_move h.cur m := rfl
      obtain ⟨hvm1, hvm2⟩ := hrange (g.make_move h.cur m)
      have hwa : Score.MIN < -b := by
        simp only [Score.MIN, Score.MAX, Score] at *; omega
      have hwb : -b < -a := neg_lt_neg hab
      have hwc : -a ≤ Score.MAX := by
        simp only [Score.MIN, Score.MAX, Score] at *; omega
      obtain ⟨cp1, cp2, cp3⟩ := hspec (-b) (-a) st pv (h.do_move g m)
        hwa hwb hwc hst
      rw [hcur] at cp1 cp2 cp3
      obtain ⟨hsh, hss, hsp, hsf⟩ := hstate (-b) (-a) st pv (h.do_move g m)
      rw [alpha_beta_loop_cons]
      set o := child (-b) (-a) st pv (h.do_move g m) with ho
      have hundo : o.hist.undo_last_move = h := by
        rw [hsh]; exact Hist.undo_do g h m
      have hstack : d ≤ o.stack.length := by rw [hss]; exact hst
      have hopv : o.pv.length = pv.length := hsp
      have htsucc := tri_succ d
      have hwlt : -value g d (g.make_move h.cur m) < b := hbound m (by simp)
      have hbound' : ∀ x ∈ ms, -value g d (g.make_move h.cur x) < b :=
        fun x hx => hbound x (by simp [hx])
      have hWeq : W = max
          (ms.foldl (fun acc m => max acc (-value g d (g.make_move h.cur m)))
            Score.MIN)
          (-value g d (g.make_move h.cur m)) := by
        rw [hW]
        simp only [List.foldl_cons]
        rw [foldl_max_init (fun m => -value g d (g.make_move h.cur m)) ms
          Score.MIN (-value g d (g.make_move h.cur m))]
      by_cases hB : -value g d (g.make_move h.cur m) ≤ a
      · have hv_ge : -a ≤ value g d (g.make_move h.cur m) := by
          simp only [Score.MIN, Score.MAX, Score] at *; omega
        have hsc := cp2 hv_ge
        have hnc : ¬-o.score ≥ b := by
          simp only [Score.MIN, Score.MAX, Score] at *; omega
        have hni : ¬-o.score > a := by
          simp only [Score.MIN, Score.MAX, Score] at *; omega
        rw [if_neg hnc, if_neg hni, hundo]
        obtain ⟨ih1, ih2⟩ := ih a b sc o.stack o.pv h
          (ms.foldl (fun acc m => max acc (-value g d (g.make_move h.cur m)))
            Score.MIN)
          ha hab hb hstack (by rw [hopv]; exact hpv) hbound' rfl
        constructor
        · intro haW
          have haW' : a < ms.foldl
              (fun acc m => max acc (-value g d (g.make_move h.cur m)))
              Score.MIN := by
            rcases le_total (-value g d (g.make_move h.cur m))
              (ms.foldl
                (fun acc m => max acc (-value g d (g.make_move h.cur m)))
                Score.MIN) with hc | hc
            · rw [hWeq, max_eq_left hc] at haW; exact haW
            · rw [hWeq, max_eq_right hc] at haW
              exact absurd haW (not_lt.mpr hB)
          have hWW' : W = ms.foldl
              (fun acc m => max acc (-value g d (g.make_move h.cur m)))
              Score.MIN := by
            rw [hWeq]
            exact max_eq_left (le_of_lt (lt_of_le_of_lt hB haW'))
          obtain ⟨e1, e2⟩ := ih1 haW'
          exact ⟨by rw [hWW']; exact e1, by rw [hWW']; exact e2⟩
        · intro hWa
          have hW'a : ms.foldl
              (fun acc m => max acc (-value g d (g.make_move h.cur m)))
              Score.MIN ≤ a := by
            refine le_trans ?_ hWa
            rw [hWeq]
            exact le_max_left _ _
          obtain ⟨e1, e2⟩ := ih2 hW'a
          refine ⟨e1, ?_⟩
          rw [e2]
          exact row_eq_of_agree pv o.pv g.null_move (d + 1)
            (pv.length - tri d) hopv hsf (by omega)
      · have hv1 : -b < value g d (g.make_move h.cur m) := by
          simp only [Score.MIN, Score.MAX, Score] at *; omega
        have hv2 : value g d (g.make_move h.cur m) < -a := by
          simp only [Score.MIN, Score.MAX, Score] at *; omega
        have hcpv := hchild_pv (-b) (-a) st pv (h.do_move g m)
          hwa hwb hwc hst (by omega) (by rw [hcur]; exact hv1)
          (by rw [hcur]; exact hv2)
        rw [hcur] at hcpv
        obtain ⟨hos, hrelc⟩ := hcpv
        have hnc : ¬-o.score ≥ b := by
          simp only [Score.MIN, Score.MAX, Score] at *; omega
        have hni : -o.score > a := by
          simp only [Score.MIN, Score.MAX, Score] at *; omega
        rw [if_neg hnc, if_pos hni, hundo]
        have hWeq2 : W = max
            (ms.foldl
              (fun acc m => max acc (-value g d (g.make_move h.cur m)))
              Score.MIN) (-o.score) := by
          rw [hWeq, hos]
        have hrel2 : -o.score = sgn (d + 1) * g.eval_relative
            (replay g h.cur
              (row (pv_update g o.pv (d + 1) m) (d + 1) g.null_move)) := by
          have hrow := row_pv_update g o.pv (d + 1) m (by omega)
            (by rw [hopv]; exact hpv)
          have hd1 : d + 1 - 1 = d := rfl
          rw [hd1] at hrow
          rw [hrow, replay_cons, hos, hrelc, sgn_succ]
          ring
        obtain ⟨ih1, ih2⟩ := ih (-o.score) b (-o.score) o.stack
          (pv_update g o.pv (d + 1) m) h
          (ms.foldl (fun acc m => max acc (-value g d (g.make_move h.cur m)))
            Score.MIN)
          (by simp only [Score.MIN, Score.MAX, Score] at *; omega)
          (by simp only [Score.MIN, Score.MAX, Score] at *; omega)
          hb hstack (by rw [pv_update_length, hopv]; exact hpv) hbound' rfl
        constructor
        · intro haW
          rcases lt_or_ge (-o.score)
            (ms.foldl
              (fun acc m => max acc (-value g d (g.make_move h.cur m)))
              Score.MIN) with hc | hc
          · obtain ⟨e1, e2⟩ := ih1 hc
            have hWW' : W = ms.foldl
                (fun acc m => max acc
                  (-value g d (g.make_move h.cur m))) Score.MIN := by
              rw [hWeq2]
              exact max_eq_left (le_of_lt hc)
            exact ⟨by rw [hWW']; exact e1, by rw [hWW']; exact e2⟩
          · obtain ⟨e1, e2⟩ := ih2 hc
            have hWW : W = -o.score := by
              rw [hWeq2]
              exact max_eq_right hc
            refine ⟨by rw [hWW]; exact e1, ?_⟩
            rw [hWW, e2]
            exact hrel2
        · intro hWa
          have hle : -o.score ≤ W := by
            rw [hWeq2]
            exact le_max_right _ _
          exact absurd (lt_of_lt_of_le hni (le_trans hle hWa))
            (lt_irrefl a)

/-- After an `alpha_beta_recursive` call whose exact tree value lies
strictly inside the window, the returned score is that value and the row
owned by its depth replays from the current position to a leaf whose
side-relative evaluation, negated once per ply, is exactly that value. -/
theorem alpha_beta_recursive_pv (g : Game P M)
    (hev : ∀ p, Score.MIN < g.eval_relative p
      ∧ g.eval_relative p ≤ Score.MAX)
    (hmv : ∀ p, g.generate_moves p ≠ []) :
    ∀ (d : Nat) (a b : Score) (st : List (List M)) (pv : List M)
      (h : Hist P),
      Score.MIN < a → a < b → b ≤ Score.MAX → d ≤ st.length →
      tri d ≤ pv.length →
      a < value g d h.cur → value g d h.cur < b →
      (alpha_beta_recursive g d a b st pv h).score = value g d h.cur ∧
      value g d h.cur = sgn d * g.eval_relative
        (replay g h.cur
          (row (alpha_beta_recursive g d a b st pv h).pv d g.null_move))
      := by
  intro d
  induction d with
  | zero =>
      intro a b st pv h _ _ _ _ _ _ _
      rw [alpha_beta_recursive_zero, row_zero, replay_nil, sgn_zero]
      refine ⟨rfl, ?_⟩
      show g.eval_relative h.cur = 1 * g.eval_relative h.cur
      ring
  | succ d ih =>
      intro a b st pv h ha hab hb hst hpv hv1 hv2
      cases st with
      | nil => simp at hst
      | cons ml rest =>
          have hrest : d ≤ rest.length := by simp at hst; omega
          have hbound : ∀ m ∈ g.generate_moves h.cur,
              -value g d (g.make_move h.cur m) < b := by
            intro m hm
            refine lt_of_le_of_lt ?_ hv2
            rw [value_succ]
            exact foldl_max_ge_elem
              (fun m => -value g d (g.make_move h.cur m))
              (g.generate_moves h.cur) Score.MIN m hm
          obtain ⟨lp1, lp2⟩ := alpha_beta_loop_pv g
            (alpha_beta_recursive g d) d
            (alpha_beta_recursive_state g d)
            (alpha_beta_recursive_spec g hev hmv d)
            (fun a' b' st' pv' h' ha' hab' hb' hst' hpv' hu1 hu2 =>
              ih a' b' st' pv' h' ha' hab' hb' hst' hpv' hu1 hu2)
            (value_range g hev hmv d)
            (g.generate_moves h.cur) a b (Score.MIN + 1) rest pv h
            (value g (d + 1) h.cur) ha hab hb hrest hpv hbound
            (value_succ g d h.cur)
          obtain ⟨e1, e2⟩ := lp1 hv1
          rw [alpha_beta_recursive_succ_cons]
          exact ⟨e1, e2⟩

/-! ### Bridging the public functions to the recursions -/

theorem negamax_fst_white (g : Game P M) (h : Hist P) (D : Nat)
    (hs : g.side_to_move h.cur = Side.White) :
    (negamax g h D).1
      = (negamax_recursive g D (List.replicate D ([] : List M))
          (List.replicate (D * (D + 1) / 2) g.null_move) h).score := by
  simp only [negamax, hs]

theorem negamax_fst_black (g : Game P M) (h : Hist P) (D : Nat)
    (hs : g.side_to_move h.cur = Side.Black) :
    (negamax g h D).1
      = -(negamax_recursive g D (List.replicate D ([] : List M))
          (List.replicate (D * (D + 1) / 2) g.null_move) h).score := by
  simp only [negamax, hs]

theorem negamax_snd (g : Game P M) (h : Hist P) (D : Nat) :
    (negamax g h D).2
      = (negamax_recursive g D (List.replicate D ([] : List M))
          (List.replicate (D * (D + 1) / 2) g.null_move) h).pv.take D := rfl

theorem alpha_beta_fst_white (g : Game P M) (h : Hist P) (D : Nat)
    (hs : g.side_to_move h.cur = Side.White) :
    (alpha_beta g h D).1
      = (alpha_beta_recursive g D (Score.MIN + 1) Score.MAX
          (List.replicate D ([] : List M))
          (List.replicate (D * (D + 1) / 2) g.null_move) h).score := by
  simp only [alpha_beta, hs]

theorem alpha_beta_fst_black (g : Game P M) (h : Hist P) (D : Nat)
    (hs : g.side_to_move h.cur = Side.Black) :
    (alpha_beta g h D).1
      = -(alpha_beta_recursive g D (-Score.MAX) (-(Score.MIN + 1))
          (List.replicate D ([] : List M))
          (List.replicate (D * (D + 1) / 2) g.null_move) h).score := by
  simp only [alpha_beta, hs]

theorem alpha_beta_snd_white (g : Game P M) (h : Hist P) (D : Nat)
    (hs : g.side_to_move h.cur = Side.White) :
    (alpha_beta g h D).2
      = (alpha_beta_recursive g D (Score.MIN + 1) Score.MAX
          (List.replicate D ([] : List M))
          (List.replicate (D * (D + 1) / 2) g.null_move) h).pv.take D := by
  simp only [alpha_beta, hs]

theorem alpha_beta_snd_black (g : Game P M) (h : Hist P) (D : Nat)
    (hs : g.side_to_move h.cur = Side.Black) :
    (alpha_beta g h D).2
      = (alpha_beta_recursive g D (-Score.MAX) (-(Score.MIN + 1))
          (List.replicate D ([] : List M))
          (List.replicate (D * (D + 1) / 2) g.null_move) h).pv.take D := by
  simp only [alpha_beta, hs]

/-! ### Remaining helpers for the claim theorems -/

theorem Game.eval_white (g : Game P M) (p : P)
    (hs : g.side_to_move p = Side.White) :
    g.eval p = g.eval_relative p := by
  unfold Game.eval
  rw [hs]

theorem Game.eval_black (g : Game P M) (p : P)
    (hs : g.side_to_move p = Side.Black) :
    g.eval p = -g.eval_relative p := by
  unfold Game.eval
  rw [hs]

/-- Strict range of the tree value under a strictly interior evaluator. -/
theorem value_range_strict (g : Game P M)
    (hev : ∀ p, Score.MIN + 1 < g.eval_relative p
      ∧ g.eval_relative p < Score.MAX)
    (hmv : ∀ p, g.generate_moves p ≠ []) :
    ∀ (d : Nat) (p : P),
      Score.MIN + 1 < value g d p ∧ value g d p < Score.MAX := by
  intro d
  induction d with
  | zero => intro p; exact hev p
  | succ d ih =>
      intro p
      rw [value_succ]
      constructor
      · obtain ⟨m, ms, hms⟩ := List.exists_cons_of_ne_nil (hmv p)
        have hmem : m ∈ g.generate_moves p := by rw [hms]; simp
        have hge : -value g d (g.make_move p m)
            ≤ (g.generate_moves p).foldl
                (fun mx m => max mx (-value g d (g.make_move p m)))
                Score.MIN :=
          foldl_max_ge_elem (fun m => -value g d (g.make_move p m))
            (g.generate_moves p) Score.MIN m hmem
        obtain ⟨hv1, hv2⟩ := ih (g.make_move p m)
        have hneg : Score.MIN + 1 < -value g d (g.make_move p m) := by
          simp only [Score.MIN, Score.MAX, Score] at *; omega
        exact lt_of_lt_of_le hneg hge
      · have hle : (g.generate_moves p).foldl
            (fun mx m => max mx (-value g d (g.make_move p m)))
            Score.MIN ≤ Score.MAX - 1 := by
          refine foldl_max_le _ _ _ (Score.MAX - 1) (by decide) ?_
          intro m _
          show -value g d (g.make_move p m) ≤ Score.MAX - 1
          obtain ⟨hv1, hv2⟩ := ih (g.make_move p m)
          simp only [Score.MIN, Score.MAX, Score] at *; omega
        simp only [Score.MIN, Score.MAX, Score] at *; omega

/-- A score carried up `D` plies with one negation per ply reports
white-relatively at the root under the side-alternation contract. -/
theorem eval_replay_of_sgn (g : Game P M)
    (halt : ∀ (p : P) (m : M),
      g.side_to_move (g.make_move p m) = Side.other (g.side_to_move p))
    (h : Hist P) (D : Nat) (line : List M) (hlen : line.length = D)
    (s : Score)
    (hs : s = sgn D * g.eval_relative (replay g h.cur line)) :
    (g.side_to_move h.cur = Side.White →
      g.eval (replay g h.cur line) = s) ∧
    (g.side_to_move h.cur = Side.Black →
      g.eval (replay g h.cur line) = -s) := by
  have hside := side_replay g halt line h.cur
  rw [hlen] at hside
  constructor
  · intro hw
    rw [hw] at hside
    rcases Nat.mod_two_eq_zero_or_one D with hD | hD
    · rw [if_pos hD] at hside
      rw [Game.eval_white g _ hside, hs]
      unfold sgn
      rw [if_pos hD]
      ring
    · rw [if_neg (by omega)] at hside
      rw [Game.eval_black g _ hside, hs]
      unfold sgn
      rw [if_neg (by omega)]
      ring
  · intro hb
    rw [hb] at hside
    rcases Nat.mod_two_eq_zero_or_one D with hD | hD
    · rw [if_pos hD] at hside
      rw [Game.eval_black g _ hside, hs]
      unfold sgn
      rw [if_pos hD]
      ring
    · rw [if_neg (by omega)] at hside
      rw [Game.eval_white g _ hside, hs]
      unfold sgn
      rw [if_neg (by omega)]
      ring

theorem combine_root (v : Score) (hv1 : Score.MIN < v)
    (hv2 : v ≤ Score.MAX) :
    combine (Score.MIN + 1) Score.MAX (Score.MIN + 1) v = v := by
  unfold combine
  by_cases h1 : Score.MAX ≤ v
  · rw [if_pos h1]
    exact le_antisymm h1 hv2
  · rw [if_neg h1]
    by_cases h2 : Score.MIN + 1 < v
    · rw [if_pos h2]
    · rw [if_neg h2]
      simp only [Score.MIN, Score.MAX, Score] at *; omega

/-! ### Concrete games for witnesses and counterexamples -/

/-- A two-position game: the position records whose turn it is, every
position has two legal moves, every move passes the turn.  Satisfies all
collaborator contracts of the spec. -/
def gameA : Game Bool Unit :=
  { side_to_move := fun b => if b then Side.White else Side.Black
    generate_moves := fun _ => [(), ()]
    make_move := fun b _ => !b
    eval_relative := fun b => if b then 3 else 5
    null_move := () }

/-- A one-position game with no legal moves, white to move: a stalemate or
checkmate root as far as the search is concerned. -/
def gameStuck : Game Unit Unit :=
  { side_to_move := fun _ => Side.White
    generate_moves := fun _ => []
    make_move := fun _ _ => ()
    eval_relative := fun _ => 0
    null_move := () }

/-- The same stuck game with black to move. -/
def gameStuckBlack : Game Unit Unit :=
  { side_to_move := fun _ => Side.Black
    generate_moves := fun _ => []
    make_move := fun _ _ => ()
    eval_relative := fun _ => 0
    null_move := () }

def histTT : Hist Bool := ⟨true, []⟩

def histFF : Hist Bool := ⟨false, []⟩

def histU : Hist Unit := ⟨(), []⟩

/-! ### The claim theorems -/

/-- C3 (confirmed): the top-level score of both `negamax` and
`alpha_beta` is white-relative: with white to move at the root it is the
side-relative recursive result, with black to move it is that result
negated exactly once (the alpha-beta recursion then also receives the
negated root window). -/
theorem root_score_white_relative (g : Game P M) (h : Hist P) (D : Nat) :
    (g.side_to_move h.cur = Side.White →
      (negamax g h D).1
        = (negamax_recursive g D (List.replicate D ([] : List M))
            (List.replicate (D * (D + 1) / 2) g.null_move) h).score ∧
      (alpha_beta g h D).1
        = (alpha_beta_recursive g D (Score.MIN + 1) Score.MAX
            (List.replicate D ([] : List M))
            (List.replicate (D * (D + 1) / 2) g.null_move) h).score) ∧
    (g.side_to_move h.cur = Side.Black →
      (negamax g h D).1
        = -(negamax_recursive g D (List.replicate D ([] : List M))
            (List.replicate (D * (D + 1) / 2) g.null_move) h).score ∧
      (alpha_beta g h D).1
        = -(alpha_beta_recursive g D (-Score.MAX) (-(Score.MIN + 1))
            (List.replicate D ([] : List M))
            (List.replicate (D * (D + 1) / 2) g.null_move) h).score) :=
  ⟨fun hs => ⟨negamax_fst_white g h D hs, alpha_beta_fst_white g h D hs⟩,
   fun hs => ⟨negamax_fst_black g h D hs, alpha_beta_fst_black g h D hs⟩⟩

theorem root_score_white_relative_witness :
    gameA.side_to_move histTT.cur = Side.White ∧
    ((negamax gameA histTT 1).1
      = (negamax_recursive gameA 1 (List.replicate 1 ([] : List Unit))
          (List.replicate (1 * (1 + 1) / 2) gameA.null_move) histTT).score ∧
     (alpha_beta gameA histTT 1).1
      = (alpha_beta_recursive gameA 1 (Score.MIN + 1) Score.MAX
          (List.replicate 1 ([] : List Unit))
          (List.replicate (1 * (1 + 1) / 2) gameA.null_move)
          histTT).score) :=
  ⟨by decide, (root_score_white_relative gameA histTT 1).1 (by decide)⟩

/-- C5 (confirmed): every recursive call, on both search variants and on
every exit path, returns with the position history exactly as at entry and
the move-list scratch stack back at its entry length, so a call at depth
`d` always finds at least `d` scratch buffers. -/
theorem recursion_restores_state (g : Game P M) (d : Nat)
    (st : List (List M)) (pv : List M) (h : Hist P) (alpha beta : Score)
    (hst : d ≤ st.length) :
    (negamax_recursive g d st pv h).hist = h ∧
    (negamax_recursive g d st pv h).stack.length = st.length ∧
    (alpha_beta_recursive g d alpha beta st pv h).hist = h ∧
    (alpha_beta_recursive g d alpha beta st pv h).stack.length
      = st.length := by
  obtain ⟨n1, n2, _, _⟩ := negamax_recursive_state g d st pv h
  obtain ⟨a1, a2, _, _⟩ :=
    alpha_beta_recursive_state g d alpha beta st pv h
  exact ⟨n1, n2, a1, a2⟩

theorem recursion_restores_state_witness :
    2 ≤ ([[], []] : List (List Unit)).length ∧
    ((negamax_recursive gameA 2 [[], []] [(), (), ()] histTT).hist
        = histTT ∧
     (negamax_recursive gameA 2 [[], []] [(), (), ()] histTT).stack.length
        = ([[], []] : List (List Unit)).length ∧
     (alpha_beta_recursive gameA 2 0 1 [[], []] [(), (), ()] histTT).hist
        = histTT ∧
     (alpha_beta_recursive gameA 2 0 1 [[], []] [(), (), ()]
        histTT).stack.length = ([[], []] : List (List Unit)).length) :=
  ⟨by decide,
   recursion_restores_state gameA 2 [[], []] [(), (), ()] histTT 0 1
     (by decide)⟩

/-- C6 counterexample: with black to move, `negamax` at depth 0 reports
the white-relative score, which differs from `eval_relative` whenever the
evaluation is nonzero. -/
theorem depth_zero_counterexample :
    (negamax gameA histFF 0).1 ≠ gameA.eval_relative histFF.cur := by
  decide

/-- C6 (corrected): at depth 0 `negamax` returns the white-relative
evaluation `Eval::eval` of the current position (equal to `eval_relative`
only when white is to move) together with an empty principal variation. -/
theorem depth_zero_eval (g : Game P M) (h : Hist P) :
    (negamax g h 0).1 = g.eval h.cur ∧ (negamax g h 0).2 = [] := by
  constructor
  · cases hs : g.side_to_move h.cur
    · rw [negamax_fst_white g h 0 hs, Game.eval_white g _ hs]
      rfl
    · rw [negamax_fst_black g h 0 hs, Game.eval_black g _ hs]
      rfl
  · rw [negamax_snd]
    simp

/-- C7 (confirmed): at a nonzero depth with zero generated moves and no
cutoff, `negamax_recursive` returns `Score::MIN` and
`alpha_beta_recursive` returns `Score::MIN + 1`; no checkmate or stalemate
evaluation happens. -/
theorem no_moves_sentinel_scores (g : Game P M) (d : Nat)
    (alpha beta : Score) (ml : List M) (rest : List (List M)) (pv : List M)
    (h : Hist P) (hmv0 : g.generate_moves h.cur = []) :
    (negamax_recursive g (d + 1) (ml :: rest) pv h).score = Score.MIN ∧
    (alpha_beta_recursive g (d + 1) alpha beta (ml :: rest) pv h).score
      = Score.MIN + 1 := by
  constructor
  · rw [negamax_recursive_succ_cons, hmv0, negamax_loop_nil]
  · rw [alpha_beta_recursive_succ_cons, hmv0, alpha_beta_loop_nil]

theorem no_moves_sentinel_scores_witness :
    gameStuck.generate_moves histU.cur = [] ∧
    ((negamax_recursive gameStuck 1 [[]] [()] histU).score = Score.MIN ∧
     (alpha_beta_recursive gameStuck 1 0 1 [[]] [()] histU).score
        = Score.MIN + 1) :=
  ⟨rfl, no_moves_sentinel_scores gameStuck 0 0 1 [] [] [()] histU rfl⟩

/-- C9 (confirmed): the returned principal variation of both searches has
length exactly `depth` for every depth, and when no improving move was
found anywhere (zero legal moves at the root) it is exactly `depth` copies
of the placeholder `Move::NULL`. -/
theorem pv_length_eq_depth (g : Game P M) (h : Hist P) (D : Nat) :
    ((negamax g h D).2.length = D ∧ (alpha_beta g h D).2.length = D) ∧
    (g.generate_moves h.cur = [] →
      (negamax g h D).2 = List.replicate D g.null_move ∧
      (alpha_beta g h D).2 = List.replicate D g.null_move) := by
  have hnlen : (negamax_recursive g D (List.replicate D ([] : List M))
      (List.replicate (D * (D + 1) / 2) g.null_move) h).pv.length
      = D * (D + 1) / 2 := by
    rw [(negamax_recursive_state g D _ _ h).2.2.1, List.length_replicate]
  have halen : ∀ a b : Score,
      (alpha_beta_recursive g D a b (List.replicate D ([] : List M))
        (List.replicate (D * (D + 1) / 2) g.null_move) h).pv.length
      = D * (D + 1) / 2 := by
    intro a b
    rw [(alpha_beta_recursive_state g D a b _ _ h).2.2.1,
      List.length_replicate]
  have hmin : D ⊓ (D * (D + 1) / 2) = D := min_eq_left (le_tri D)
  constructor
  · constructor
    · rw [negamax_snd, List.length_take, hnlen, hmin]
    · cases hs : g.side_to_move h.cur
      · rw [alpha_beta_snd_white g h D hs, List.length_take, halen, hmin]
      · rw [alpha_beta_snd_black g h D hs, List.length_take, halen, hmin]
  · intro hmv0
    constructor
    · rw [negamax_snd]
      cases D with
      | zero => simp
      | succ e =>
          rw [List.replicate_succ, negamax_recursive_succ_cons, hmv0,
            negamax_loop_nil]
          show (List.replicate ((e + 1) * (e + 1 + 1) / 2)
            g.null_move).take (e + 1) = _
          rw [List.take_replicate]
          congr 1
    · have hcase : ∀ a b : Score,
          (alpha_beta_recursive g D a b (List.replicate D ([] : List M))
            (List.replicate (D * (D + 1) / 2) g.null_move) h).pv.take D
          = List.replicate D g.null_move := by
        intro a b
        cases D with
        | zero => simp
        | succ e =>
            rw [List.replicate_succ, alpha_beta_recursive_succ_cons, hmv0,
              alpha_beta_loop_nil]
            show (List.replicate ((e + 1) * (e + 1 + 1) / 2)
              g.null_move).take (e + 1) = _
            rw [List.take_replicate]
            congr 1
      cases hs : g.side_to_move h.cur
      · rw [alpha_beta_snd_white g h D hs, hcase]
      · rw [alpha_beta_snd_black g h D hs, hcase]

theorem pv_length_eq_depth_witness :
    gameStuck.generate_moves histU.cur = [] ∧
    ((negamax gameStuck histU 1).2
        = List.replicate 1 gameStuck.null_move ∧
     (alpha_beta gameStuck histU 1).2
        = List.replicate 1 gameStuck.null_move) :=
  ⟨rfl, (pv_length_eq_depth gameStuck histU 1).2 rfl⟩

/-- C4 (confirmed): in the move loop of `alpha_beta_recursive` at a
nonzero depth, when a candidate move's negated child score reaches beta,
the loop returns exactly `beta`, searches none of the later candidate
moves, and the cutoff move has been undone on the history before the
return. -/
theorem beta_cutoff_behavior (g : Game P M) (d : Nat) (m : M) (ms : List M)
    (alpha beta sc : Score) (st : List (List M)) (pv : List M) (h : Hist P)
    (hcut : -(alpha_beta_recursive g d (-beta) (-alpha) st pv
        (h.do_move g m)).score ≥ beta) :
    alpha_beta_loop g (alpha_beta_recursive g d) (d + 1) (m :: ms) alpha
        beta sc st pv h
      = ⟨beta,
          (alpha_beta_recursive g d (-beta) (-alpha) st pv
            (h.do_move g m)).stack,
          (alpha_beta_recursive g d (-beta) (-alpha) st pv
            (h.do_move g m)).pv,
          (alpha_beta_recursive g d (-beta) (-alpha) st pv
            (h.do_move g m)).hist.undo_last_move⟩ ∧
    (alpha_beta_recursive g d (-beta) (-alpha) st pv
        (h.do_move g m)).hist.undo_last_move = h := by
  constructor
  · rw [alpha_beta_loop_cons, if_pos hcut]
  · rw [(alpha_beta_recursive_state g d (-beta) (-alpha) st pv
      (h.do_move g m)).1]
    exact Hist.undo_do g h m

theorem beta_cutoff_behavior_witness :
    -(alpha_beta_recursive gameA 0 (-(-5)) (-(-7)) [] []
        (histTT.do_move gameA ())).score ≥ (-5 : Score) ∧
    (alpha_beta_loop gameA (alpha_beta_recursive gameA 0) 1 [(), ()] (-7)
        (-5) 0 [] [] histTT
      = ⟨-5,
          (alpha_beta_recursive gameA 0 (-(-5)) (-(-7)) [] []
            (histTT.do_move gameA ())).stack,
          (alpha_beta_recursive gameA 0 (-(-5)) (-(-7)) [] []
            (histTT.do_move gameA ())).pv,
          (alpha_beta_recursive gameA 0 (-(-5)) (-(-7)) [] []
            (histTT.do_move gameA ())).hist.undo_last_move⟩ ∧
     (alpha_beta_recursive gameA 0 (-(-5)) (-(-7)) [] []
        (histTT.do_move gameA ())).hist.undo_last_move = histTT) :=
  ⟨by decide,
   beta_cutoff_behavior gameA 0 () [()] (-7) (-5) 0 [] [] histTT
     (by decide)⟩

/-- C10 (confirmed): the loop iteration that triggers a beta cutoff never
writes the cutoff move into the principal-variation buffer: the buffer
returned for the pruned node is exactly the one the child call left
behind, and every slot outside the child region — in particular the whole
row owned by the pruned depth — still holds what it held when the
iteration started (an earlier sibling's moves or the initial null
padding). -/
theorem beta_cutoff_leaves_pv (g : Game P M) (d : Nat) (m : M)
    (ms : List M) (alpha beta sc : Score) (st : List (List M)) (pv : List M)
    (h : Hist P)
    (hcut : -(alpha_beta_recursive g d (-beta) (-alpha) st pv
        (h.do_move g m)).score ≥ beta) :
    (alpha_beta_loop g (alpha_beta_recursive g d) (d + 1) (m :: ms) alpha
        beta sc st pv h).pv
      = (alpha_beta_recursive g d (-beta) (-alpha) st pv
          (h.do_move g m)).pv ∧
    (∀ j, j < pv.length - tri d →
      (alpha_beta_loop g (alpha_beta_recursive g d) (d + 1) (m :: ms) alpha
          beta sc st pv h).pv[j]? = pv[j]?) := by
  constructor
  · rw [alpha_beta_loop_cons, if_pos hcut]
  · intro j hj
    rw [alpha_beta_loop_cons, if_pos hcut]
    exact (alpha_beta_recursive_state g d (-beta) (-alpha) st pv
      (h.do_move g m)).2.2.2 j hj

theorem beta_cutoff_leaves_pv_witness :
    -(alpha_beta_recursive gameA 0 (-(-5)) (-(-6)) [] [(), ()]
        (histTT.do_move gameA ())).score ≥ (-5 : Score) ∧
    ((alpha_beta_loop gameA (alpha_beta_recursive gameA 0) 1 [()] (-6)
        (-5) 0 [] [(), ()] histTT).pv
      = (alpha_beta_recursive gameA 0 (-(-5)) (-(-6)) [] [(), ()]
          (histTT.do_move gameA ())).pv ∧
     (∀ j, j < ([(), ()] : List Unit).length - tri 0 →
      (alpha_beta_loop gameA (alpha_beta_recursive gameA 0) 1 [()] (-6)
          (-5) 0 [] [(), ()] histTT).pv[j]?
        = ([(), ()] : List Unit)[j]?)) :=
  ⟨by decide,
   beta_cutoff_leaves_pv gameA 0 () [] (-6) (-5) 0 [] [(), ()] histTT
     (by decide)⟩

/-- C1 counterexample: at a root with zero legal moves (a mate or
stalemate position) and depth 1, `negamax` reports `Score::MIN` while
`alpha_beta` reports `Score::MIN + 1`, so the two scores differ. -/
theorem negamax_alpha_beta_score_counterexample :
    (negamax gameStuck histU 1).1 = Score.MIN ∧
    (alpha_beta gameStuck histU 1).1 = Score.MIN + 1 ∧
    (negamax gameStuck histU 1).1 ≠ (alpha_beta gameStuck histU 1).1 := by
  decide

/-- C1 (corrected): provided every position reachable in the search has at
least one legal move and the evaluator stays in
`(Score::MIN, Score::MAX]`, `negamax` and `alpha_beta` return the same
score for every position history and every depth. -/
theorem negamax_alpha_beta_score_eq (g : Game P M)
    (hev : ∀ p, Score.MIN < g.eval_relative p
      ∧ g.eval_relative p ≤ Score.MAX)
    (hmv : ∀ p, g.generate_moves p ≠ []) (h : Hist P) (D : Nat) :
    (negamax g h D).1 = (alpha_beta g h D).1 := by
  have hstl : D ≤ (List.replicate D ([] : List M)).length := by
    rw [List.length_replicate]
  have hnm := negamax_recursive_score g D (List.replicate D ([] : List M))
    (List.replicate (D * (D + 1) / 2) g.null_move) h hstl
  have hab := alpha_beta_recursive_score g hev hmv D (Score.MIN + 1)
    Score.MAX (List.replicate D ([] : List M))
    (List.replicate (D * (D + 1) / 2) g.null_move) h (by decide)
    (by decide) (by decide) hstl
  have habv : (alpha_beta_recursive g D (Score.MIN + 1) Score.MAX
      (List.replicate D ([] : List M))
      (List.replicate (D * (D + 1) / 2) g.null_move) h).score
      = value g D h.cur := by
    cases D with
    | zero => rw [hab]; rfl
    | succ e =>
        have hab' : (alpha_beta_recursive g (e + 1) (Score.MIN + 1)
            Score.MAX (List.replicate (e + 1) ([] : List M))
            (List.replicate ((e + 1) * (e + 1 + 1) / 2) g.null_move)
            h).score
            = combine (Score.MIN + 1) Score.MAX (Score.MIN + 1)
                (value g (e + 1) h.cur) := hab
        rw [hab']
        obtain ⟨hv1, hv2⟩ := value_range g hev hmv (e + 1) h.cur
        exact combine_root _ hv1 hv2
  cases hs : g.side_to_move h.cur
  · rw [negamax_fst_white g h D hs, alpha_beta_fst_white g h D hs, hnm,
      habv]
  · rw [negamax_fst_black g h D hs, alpha_beta_fst_black g h D hs, hnm,
      neg_MAX, neg_MIN_succ, habv]

theorem negamax_alpha_beta_score_eq_witness :
    (∀ p : Bool, Score.MIN < gameA.eval_relative p
      ∧ gameA.eval_relative p ≤ Score.MAX) ∧
    (∀ p : Bool, gameA.generate_moves p ≠ []) ∧
    (negamax gameA histTT 2).1 = (alpha_beta gameA histTT 2).1 :=
  ⟨by decide, by decide,
   negamax_alpha_beta_score_eq gameA (by decide) (by decide) histTT 2⟩

/-- C2 counterexample: at a root with zero legal moves and depth 1 the
returned principal variation is the null move; replaying it and
evaluating white-relatively gives the static evaluation, not the returned
sentinel score `Score::MIN`. -/
theorem pv_replay_counterexample :
    gameStuck.eval
        (replay gameStuck histU.cur (negamax gameStuck histU 1).2)
      ≠ (negamax gameStuck histU 1).1 := by
  decide

/-- C2 (corrected): provided moves alternate the side to move, every
position has at least one legal move, and the evaluator stays strictly
inside `(Score::MIN + 1, Score::MAX)`, replaying the principal variation
returned by either search from the searched position and evaluating the
resulting leaf white-relatively with `Eval::eval` yields exactly the
returned score. -/
theorem pv_replay_eval (g : Game P M)
    (halt : ∀ (p : P) (m : M),
      g.side_to_move (g.make_move p m) = Side.other (g.side_to_move p))
    (hev : ∀ p, Score.MIN + 1 < g.eval_relative p
      ∧ g.eval_relative p < Score.MAX)
    (hmv : ∀ p, g.generate_moves p ≠ []) (h : Hist P) (D : Nat) :
    g.eval (replay g h.cur (negamax g h D).2) = (negamax g h D).1 ∧
    g.eval (replay g h.cur (alpha_beta g h D).2) = (alpha_beta g h D).1
    := by
  have hev' : ∀ p, Score.MIN < g.eval_relative p
      ∧ g.eval_relative p ≤ Score.MAX := by
    intro p
    obtain ⟨h1, h2⟩ := hev p
    constructor
    · simp only [Score.MIN, Score.MAX, Score] at *; omega
    · simp only [Score.MIN, Score.MAX, Score] at *; omega
  have hstl : D ≤ (List.replicate D ([] : List M)).length := by
    rw [List.length_replicate]
  have hpv0 : tri D
      ≤ (List.replicate (D * (D + 1) / 2) g.null_move).length := by
    rw [List.length_replicate]
    exact le_refl _
  constructor
  · -- negamax
    have hlen : (negamax_recursive g D (List.replicate D ([] : List M))
        (List.replicate (D * (D + 1) / 2) g.null_move) h).pv.length
        = tri D := by
      rw [(negamax_recursive_state g D _ _ h).2.2.1,
        List.length_replicate]
      rfl
    have hsc := negamax_recursive_pv g hev' hmv D
      (List.replicate D ([] : List M))
      (List.replicate (D * (D + 1) / 2) g.null_move) h hstl hpv0
    have htake := take_eq_row (negamax_recursive g D
      (List.replicate D ([] : List M))
      (List.replicate (D * (D + 1) / 2) g.null_move) h).pv D g.null_move
      hlen
    have hlinelen : ((negamax_recursive g D
        (List.replicate D ([] : List M))
        (List.replicate (D * (D + 1) / 2) g.null_move) h).pv.take
          D).length = D := by
      rw [List.length_take, hlen]
      exact min_eq_left (le_tri D)
    obtain ⟨ew, eb⟩ := eval_replay_of_sgn g halt h D
      ((negamax_recursive g D (List.replicate D ([] : List M))
        (List.replicate (D * (D + 1) / 2) g.null_move) h).pv.take D)
      hlinelen
      ((negamax_recursive g D (List.replicate D ([] : List M))
        (List.replicate (D * (D + 1) / 2) g.null_move) h).score)
      (by rw [htake]; exact hsc)
    cases hs : g.side_to_move h.cur
    · rw [negamax_fst_white g h D hs, negamax_snd]
      exact ew hs
    · rw [negamax_fst_black g h D hs, negamax_snd]
      exact eb hs
  · -- alpha-beta
    obtain ⟨sv1, sv2⟩ := value_range_strict g hev hmv D h.cur
    obtain ⟨habs, habrel⟩ := alpha_beta_recursive_pv g hev' hmv D
      (Score.MIN + 1) Score.MAX (List.replicate D ([] : List M))
      (List.replicate (D * (D + 1) / 2) g.null_move) h (by decide)
      (by decide) (le_refl _) hstl hpv0 sv1 sv2
    have hlen : (alpha_beta_recursive g D (Score.MIN + 1) Score.MAX
        (List.replicate D ([] : List M))
        (List.replicate (D * (D + 1) / 2) g.null_move) h).pv.length
        = tri D := by
      rw [(alpha_beta_recursive_state g D (Score.MIN + 1) Score.MAX _ _
        h).2.2.1, List.length_replicate]
      rfl
    have htake := take_eq_row (alpha_beta_recursive g D (Score.MIN + 1)
      Score.MAX (List.replicate D ([] : List M))
      (List.replicate (D * (D + 1) / 2) g.null_move) h).pv D g.null_move
      hlen
    have hlinelen : ((alpha_beta_recursive g D (Score.MIN + 1) Score.MAX
        (List.replicate D ([] : List M))
        (List.replicate (D * (D + 1) / 2) g.null_move) h).pv.take
          D).length = D := by
      rw [List.length_take, hlen]
      exact min_eq_left (le_tri D)
    obtain ⟨ew, eb⟩ := eval_replay_of_sgn g halt h D
      ((alpha_beta_recursive g D (Score.MIN + 1) Score.MAX
        (List.replicate D ([] : List M))
        (List.replicate (D * (D + 1) / 2) g.null_move) h).pv.take D)
      hlinelen
      ((alpha_beta_recursive g D (Score.MIN + 1) Score.MAX
        (List.replicate D ([] : List M))
        (List.replicate (D * (D + 1) / 2) g.null_move) h).score)
      (by rw [htake, habs]; exact habrel)
    cases hs : g.side_to_move h.cur
    · rw [alpha_beta_fst_white g h D hs, alpha_beta_snd_white g h D hs]
      exact ew hs
    · rw [alpha_beta_fst_black g h D hs, alpha_beta_snd_black g h D hs,
        neg_MAX, neg_MIN_succ]
      exact eb hs

theorem pv_replay_eval_witness :
    (∀ (p : Bool) (m : Unit), gameA.side_to_move (gameA.make_move p m)
      = Side.other (gameA.side_to_move p)) ∧
    (∀ p : Bool, Score.MIN + 1 < gameA.eval_relative p
      ∧ gameA.eval_relative p < Score.MAX) ∧
    (∀ p : Bool, gameA.generate_moves p ≠ []) ∧
    (gameA.eval (replay gameA histTT.cur (negamax gameA histTT 2).2)
        = (negamax gameA histTT 2).1 ∧
     gameA.eval (replay gameA histTT.cur (alpha_beta gameA histTT 2).2)
        = (alpha_beta gameA histTT 2).1) :=
  ⟨by decide, by decide, by decide,
   pv_replay_eval gameA (by decide) (by decide) (by decide) histTT 2⟩

/-- C8 counterexample: at a black-to-move root with zero legal moves,
`negamax_recursive` returns the true `Score::MIN` and the root negates it
— the claimed invariant that only values strictly above `Score::MIN` are
ever negated fails on the code. -/
theorem negamax_negates_min :
    (negamax_recursive gameStuckBlack 1 [([] : List Unit)] [()]
        ⟨(), []⟩).score = Score.MIN ∧
    (negamax gameStuckBlack ⟨(), []⟩ 1).1 = -Score.MIN := by
  decide

/-- C8 (corrected): provided every position has at least one legal move
and the evaluator stays in `(Score::MIN, Score::MAX]`, both recursive
searches only ever return scores in `(Score::MIN, Score::MAX]` on windows
whose bounds lie in that range (as the root window
`(Score::MIN + 1, Score::MAX)` does), so every value the search negates —
recursive return values, root results and window bounds — is strictly
greater than `Score::MIN`; without the legal-move assumption `negamax`
negates the true `Score::MIN` at any node with no moves. -/
theorem scores_stay_above_min (g : Game P M)
    (hev : ∀ p, Score.MIN < g.eval_relative p
      ∧ g.eval_relative p ≤ Score.MAX)
    (hmv : ∀ p, g.generate_moves p ≠ []) (d : Nat) (st : List (List M))
    (pv : List M) (h : Hist P) (alpha beta : Score) (hst : d ≤ st.length)
    (ha : Score.MIN < alpha) (hab : alpha < beta) (hb : beta ≤ Score.MAX) :
    (Score.MIN < (negamax_recursive g d st pv h).score ∧
      (negamax_recursive g d st pv h).score ≤ Score.MAX) ∧
    (Score.MIN < (alpha_beta_recursive g d alpha beta st pv h).score ∧
      (alpha_beta_recursive g d alpha beta st pv h).score ≤ Score.MAX)
    := by
  constructor
  · rw [negamax_recursive_score g d st pv h hst]
    exact value_range g hev hmv d h.cur
  · have hab2 := alpha_beta_recursive_score g hev hmv d alpha beta st pv h
      ha hab hb hst
    cases d with
    | zero =>
        rw [hab2]
        exact hev h.cur
    | succ e =>
        have hab2' : (alpha_beta_recursive g (e + 1) alpha beta st pv
            h).score
            = combine alpha beta (Score.MIN + 1) (value g (e + 1) h.cur)
            := hab2
        rw [hab2']
        obtain ⟨hv1, hv2⟩ := value_range g hev hmv (e + 1) h.cur
        unfold combine
        split_ifs with h1 h2
        · exact ⟨lt_trans ha hab, hb⟩
        · exact ⟨hv1, hv2⟩
        · constructor
          · simp only [Score.MIN, Score.MAX, Score] at *; omega
          · simp only [Score.MIN, Score.MAX, Score] at *; omega

theorem scores_stay_above_min_witness :
    (∀ p : Bool, Score.MIN < gameA.eval_relative p
      ∧ gameA.eval_relative p ≤ Score.MAX) ∧
    (∀ p : Bool, gameA.generate_moves p ≠ []) ∧
    1 ≤ ([[]] : List (List Unit)).length ∧
    Score.MIN < Score.MIN + 1 ∧ Score.MIN + 1 < Score.MAX ∧
    Score.MAX ≤ Score.MAX ∧
    ((Score.MIN < (negamax_recursive gameA 1 [[]] [()] histTT).score ∧
      (negamax_recursive gameA 1 [[]] [()] histTT).score ≤ Score.MAX) ∧
     (Score.MIN < (alpha_beta_recursive gameA 1 (Score.MIN + 1) Score.MAX
        [[]] [()] histTT).score ∧
      (alpha_beta_recursive gameA 1 (Score.MIN + 1) Score.MAX [[]] [()]
        histTT).score ≤ Score.MAX)) :=
  ⟨by decide, by decide, by decide, by decide, by decide, le_refl _,
   scores_stay_above_min gameA (by decide) (by decide) 1 [[]] [()] histTT
     (Score.MIN + 1) Score.MAX (by decide) (by decide) (by decide)
     (le_refl _)⟩

end Search

end Chess
